import Mathlib

/-!
Shallow embedding of the pricing-catalog export pipeline
(`src/fetch_every_5min/files/scripts/app.py`) and proofs of the spec's claims.

Modelling conventions:
* Python scalar values (dict values coming back from the remote service) are
  the inductive `Val`; `Val.vnull` models `None` / an absent dict key.
* Python `dict` objects keyed by scalar values are insertion-ordered
  association lists; `dict` keys are unique by construction, which the
  embedding's update functions (`mapSet`, `mapAppendEntry`) preserve.
* Python strings are `String`, lowering and comparisons go through `.data`
  (`List Char`) so that everything evaluates inside the kernel.
* The `csv` module calls at lines 188-196 and 284-290 of `app.py` are embedded
  at character level (writer with `QUOTE_ALL`, `escapechar='\\'`,
  `doublequote` on; reader with the default dialect: no escapechar,
  `doublequote` on), over the decoded character stream (the UTF-8 byte-order
  mark added by the `utf-8-sig` codec is stripped back off by the same codec
  on re-read and is outside the cell-level model).
-/

namespace SFData

/-- A Python scalar value as delivered by the record source (JSON-decoded):
`None`, a boolean, an integer, or a string. `vnull` also models the default
`None` returned by `dict.get` for an absent key. -/
inductive Val where
  | vnull
  | vbool (b : Bool)
  | vnum (n : Int)
  | vstr (s : String)
deriving DecidableEq, Repr

/-- Python truthiness of a scalar: `None` and empty/zero values are falsy. -/
def truthy : Val → Bool
  | .vnull => false
  | .vbool b => b
  | .vnum n => n != 0
  | .vstr s => s != ""

/-- Python `a or b`. -/
def pyOr (a b : Val) : Val := if truthy a then a else b

/-- The string the `csv` writer emits for a cell value: `None` becomes the
empty cell, other scalars go through `str()`. -/
def pyStr : Val → String
  | .vnull => ""
  | .vbool true => "True"
  | .vbool false => "False"
  | .vnum n => toString n
  | .vstr s => s

/-- Python `str.endswith` on character lists. -/
def endsWithL (s suf : List Char) : Bool := suf.isSuffixOf s

/-- The `Pricebook2` relationship sub-object of a streamed record, when the
transport delivered it as a dict; each attribute is `dict.get(key)`, so
`vnull` models an absent key. -/
structure PB2Rel where
  Id : Val
  Name : Val
  IsActive : Val
  IsStandard : Val
  Description : Val
  CreatedDate : Val
  LastModifiedDate : Val
deriving DecidableEq, Repr

/-- The `Product2` relationship sub-object of a streamed record; `custom`
holds the runtime-discovered `__c` keys of the sub-object dict. -/
structure P2Rel where
  Name : Val
  ProductCode : Val
  Family : Val
  IsActive : Val
  Description : Val
  custom : List (String × Val)
deriving DecidableEq, Repr

/-- One record streamed from the joined `PricebookEntry` query
(`sf.query_all_iter(pbe_soql)`, app.py line 200). Flat keys are `dict.get`
results; `Pricebook2` / `Product2` are `none` when the relationship sub-object
is absent or not a dict (the `safe_rel` edge case); `custom` holds the
record's runtime-discovered `__c` keys. -/
structure SRecord where
  Id : Val
  Pricebook2Id : Val
  Product2Id : Val
  UnitPrice : Val
  IsActive : Val
  UseStandardPrice : Val
  CreatedDate : Val
  LastModifiedDate : Val
  CurrencyIsoCode : Val
  Pricebook2 : Option PB2Rel
  Product2 : Option P2Rel
  custom : List (String × Val)
deriving DecidableEq, Repr

/-- `safe_rel(r, "Pricebook2", key)` (app.py lines 125-129): project a field
of the `Pricebook2` sub-object, `None` when the sub-object is not a dict. -/
def safe_relPB (r : SRecord) (f : PB2Rel → Val) : Val :=
  match r.Pricebook2 with
  | some rel => f rel
  | none => Val.vnull

/-- `safe_rel(r, "Product2", key)` for the fixed `Product2` attributes. -/
def safe_relP2 (r : SRecord) (f : P2Rel → Val) : Val :=
  match r.Product2 with
  | some rel => f rel
  | none => Val.vnull

/-- `d.get(k)` on a string-keyed dict, embedded as first-match lookup over
the association list (dict keys are unique). -/
def assocGet (k : String) : List (String × Val) → Val
  | [] => Val.vnull
  | (k0, v) :: rest => if k0 = k then v else assocGet k rest

/-- `safe_rel(r, "Product2", fcf)` for a discovered custom field name. -/
def safe_relP2custom (r : SRecord) (k : String) : Val :=
  match r.Product2 with
  | some rel => assocGet k rel.custom
  | none => Val.vnull

/-- `r.get(fcf)` for a discovered custom field of the record itself. -/
def rgetCustom (r : SRecord) (k : String) : Val :=
  assocGet k r.custom

/-- `pb_id = safe_rel(r, "Pricebook2", "Id") or r.get("Pricebook2Id")`
(app.py line 203): the resolved parent-catalog identity of a record. -/
def pb_id_of (r : SRecord) : Val := pyOr (safe_relPB r PB2Rel.Id) r.Pricebook2Id

/-- `pb_name = safe_rel(r, "Pricebook2", "Name")` (app.py line 204). -/
def pb_name_of (r : SRecord) : Val := safe_relPB r PB2Rel.Name

/-- The denormalized `Product` sub-dict embedded in each nested entry
(app.py lines 227-234 and 242-244). -/
structure ProductObj where
  Id : Val
  Name : Val
  ProductCode : Val
  Family : Val
  IsActive : Val
  Description : Val
  custom : List (String × Val)
deriving DecidableEq, Repr

/-- The nested entry dict built per record (app.py lines 218-244).
`CurrencyIsoCode` is `some v` exactly when the multi-currency branch added the
key (line 236-237); `custom` holds the discovered `PricebookEntry` custom
fields in discovery order (lines 240-241). -/
structure Entry where
  Id : Val
  Pricebook2Id : Val
  Product2Id : Val
  UnitPrice : Val
  IsActive : Val
  UseStandardPrice : Val
  CreatedDate : Val
  LastModifiedDate : Val
  Product : ProductObj
  CurrencyIsoCode : Option Val
  custom : List (String × Val)
deriving DecidableEq, Repr

/-- One value of `pricebooks_map`: a price book dict with its accumulated
`Entries` list (app.py lines 154-163 and 207-216). -/
structure Catalog where
  Id : Val
  Name : Val
  IsActive : Val
  IsStandard : Val
  Description : Val
  CreatedDate : Val
  LastModifiedDate : Val
  Entries : List Entry
deriving DecidableEq, Repr

/-- The per-run configuration threaded through the pass: the currency probe
outcome, the two discovered custom-field lists, and the
`INCLUDE_PRODUCT2_FIELDS` toggle. -/
structure Config where
  include_currency : Bool
  pbe_custom_fields : List String
  product2_custom_fields : List String
  include_product2_custom : Bool
deriving DecidableEq, Repr

/-- `entry = {...}` (app.py lines 218-244) as a function of the record. -/
def mkEntry (cfg : Config) (r : SRecord) : Entry :=
  { Id := r.Id
    Pricebook2Id := r.Pricebook2Id
    Product2Id := r.Product2Id
    UnitPrice := r.UnitPrice
    IsActive := r.IsActive
    UseStandardPrice := r.UseStandardPrice
    CreatedDate := r.CreatedDate
    LastModifiedDate := r.LastModifiedDate
    Product :=
      { Id := r.Product2Id
        Name := safe_relP2 r P2Rel.Name
        ProductCode := safe_relP2 r P2Rel.ProductCode
        Family := safe_relP2 r P2Rel.Family
        IsActive := safe_relP2 r P2Rel.IsActive
        Description := safe_relP2 r P2Rel.Description
        custom :=
          if cfg.include_product2_custom then
            cfg.product2_custom_fields.map (fun f => (f, safe_relP2custom r f))
          else [] }
    CurrencyIsoCode := if cfg.include_currency then some r.CurrencyIsoCode else none
    custom := cfg.pbe_custom_fields.map (fun f => (f, rgetCustom r f)) }

/-- The fresh catalog dict materialized for a parent identity first seen via
an entry record (app.py lines 207-216). -/
def catalogFromRecord (r : SRecord) : Catalog :=
  { Id := pb_id_of r
    Name := pb_name_of r
    IsActive := safe_relPB r PB2Rel.IsActive
    IsStandard := safe_relPB r PB2Rel.IsStandard
    Description := safe_relPB r PB2Rel.Description
    CreatedDate := safe_relPB r PB2Rel.CreatedDate
    LastModifiedDate := safe_relPB r PB2Rel.LastModifiedDate
    Entries := [] }

/-- `pricebooks_map`: an insertion-ordered dict keyed by the catalog
identity. -/
abbrev PBMap := List (Val × Catalog)

/-- Dict lookup `k in m` / `m[k]` on `pricebooks_map`, as first-match
lookup (dict keys are unique). -/
def mapLookup (m : PBMap) (k : Val) : Option Catalog :=
  match m with
  | [] => none
  | (k0, c0) :: rest => if k0 = k then some c0 else mapLookup rest k

/-- Python dict assignment `m[k] = c`: overwrite in place when the key
exists, append otherwise. -/
def mapSet : PBMap → Val → Catalog → PBMap
  | [], k, c => [(k, c)]
  | (k0, c0) :: rest, k, c =>
      if k0 = k then (k, c) :: rest else (k0, c0) :: mapSet rest k c

/-- `pricebooks_map[pb_id]["Entries"].append(entry)` (app.py line 246):
append an entry to the catalog stored under the (present) key. On a missing
key the source would raise `KeyError`; the loop only calls this after
ensuring the key is present, so the `[]` case is unreachable there. -/
def mapAppendEntry : PBMap → Val → Entry → PBMap
  | [], _, _ => []
  | (k0, c0) :: rest, k, e =>
      if k0 = k then (k0, { c0 with Entries := c0.Entries ++ [e] }) :: rest
      else (k0, c0) :: mapAppendEntry rest k e

/-- One flat row dict (app.py lines 249-274), as the ordered key/value pairs
the code inserts. -/
def mkRow (cfg : Config) (pb_id pb_name : Val) (entry : Entry) : List (String × Val) :=
  [("Pricebook.Id", pb_id), ("Pricebook.Name", pb_name),
   ("Entry.Id", entry.Id), ("Entry.Pricebook2Id", entry.Pricebook2Id),
   ("Entry.Product2Id", entry.Product2Id), ("Entry.UnitPrice", entry.UnitPrice),
   ("Entry.IsActive", entry.IsActive), ("Entry.UseStandardPrice", entry.UseStandardPrice),
   ("Entry.CreatedDate", entry.CreatedDate), ("Entry.LastModifiedDate", entry.LastModifiedDate),
   ("Product.Id", entry.Product.Id), ("Product.Name", entry.Product.Name),
   ("Product.ProductCode", entry.Product.ProductCode), ("Product.Family", entry.Product.Family),
   ("Product.IsActive", entry.Product.IsActive), ("Product.Description", entry.Product.Description)]
  ++ (if cfg.include_currency then
        [("Entry.CurrencyIsoCode", entry.CurrencyIsoCode.getD Val.vnull)]
      else [])
  ++ cfg.pbe_custom_fields.map
      (fun f => ("Entry." ++ f, assocGet f entry.custom))
  ++ (if cfg.include_product2_custom then
        cfg.product2_custom_fields.map
          (fun f => ("Product." ++ f, assocGet f entry.Product.custom))
      else [])

/-- The flat row produced for one streamed record. -/
def rowOf (cfg : Config) (r : SRecord) : List (String × Val) :=
  mkRow cfg (pb_id_of r) (pb_name_of r) (mkEntry cfg r)

/-- The streaming pass's mutable state: the catalog index, the row counter,
and the rows already handed to the csv writer, in emission order. -/
structure LoopState where
  pricebooks_map : PBMap
  total_entry_rows : Nat
  csv_rows : List (List (String × Val))
deriving DecidableEq, Repr

/-- The body of `for r in sf.query_all_iter(pbe_soql)` (app.py lines
200-276): count the record, resolve the parent identity, materialize the
catalog on first sight, build the entry, append it to its catalog, and emit
the flat row. -/
def loopStep (cfg : Config) (st : LoopState) (r : SRecord) : LoopState :=
  let pb_id := pb_id_of r
  let pb_name := pb_name_of r
  let m1 :=
    if (mapLookup st.pricebooks_map pb_id).isSome then st.pricebooks_map
    else st.pricebooks_map ++ [(pb_id, catalogFromRecord r)]
  let entry := mkEntry cfg r
  { pricebooks_map := mapAppendEntry m1 pb_id entry
    total_entry_rows := st.total_entry_rows + 1
    csv_rows := st.csv_rows ++ [mkRow cfg pb_id pb_name entry] }

/-- The whole streaming pass over the record list. -/
def runLoop (cfg : Config) (init : LoopState) (records : List SRecord) : LoopState :=
  records.foldl (loopStep cfg) init

/-- One row of the unfiltered `Pricebook2` listing (app.py lines 150-163);
`Id` is indexed directly (`pb["Id"]`), the rest use `dict.get`. -/
structure PBRecord where
  Id : Val
  Name : Val
  IsActive : Val
  IsStandard : Val
  Description : Val
  CreatedDate : Val
  LastModifiedDate : Val
deriving DecidableEq, Repr

/-- The catalog dict seeded for a preloaded price book (app.py lines
154-163). -/
def preloadCatalog (pb : PBRecord) : Catalog :=
  { Id := pb.Id
    Name := pb.Name
    IsActive := pb.IsActive
    IsStandard := pb.IsStandard
    Description := pb.Description
    CreatedDate := pb.CreatedDate
    LastModifiedDate := pb.LastModifiedDate
    Entries := [] }

/-- The preload of `pricebooks_map` from the catalog listing (app.py lines
152-163). -/
def preload (pbs : List PBRecord) : PBMap :=
  pbs.foldl (fun m pb => mapSet m pb.Id (preloadCatalog pb)) []

/-- The loop state at the top of the streaming pass. -/
def initState (pbs : List PBRecord) : LoopState :=
  { pricebooks_map := preload pbs, total_entry_rows := 0, csv_rows := [] }

/-- The fixed core column list `base_cols` with the conditional
`Entry.CurrencyIsoCode` inserted at index 7 (app.py lines 171-177). -/
def base_cols (include_currency : Bool) : List String :=
  let cols := ["Pricebook.Id", "Pricebook.Name", "Entry.Id", "Entry.Pricebook2Id",
    "Entry.Product2Id", "Entry.UnitPrice", "Entry.IsActive", "Entry.UseStandardPrice",
    "Entry.CreatedDate", "Entry.LastModifiedDate", "Product.Id", "Product.Name",
    "Product.ProductCode", "Product.Family", "Product.IsActive", "Product.Description"]
  if include_currency then cols.insertIdx 7 "Entry.CurrencyIsoCode" else cols

/-- `header_cols = base_cols + dynamic_cols` (app.py lines 179-182). -/
def header_cols (cfg : Config) : List String :=
  base_cols cfg.include_currency
  ++ cfg.pbe_custom_fields.map (fun f => "Entry." ++ f)
  ++ (if cfg.include_product2_custom then
        cfg.product2_custom_fields.map (fun f => "Product." ++ f)
      else [])

/-- The cells `csv.DictWriter` (fieldnames `header_cols`, `extrasaction`
ignore, default `restval None`) emits for one row dict: one cell per header
column, missing keys and `None` written as the empty cell. -/
def rowCells (cfg : Config) (row : List (String × Val)) : List (List Char) :=
  (header_cols cfg).map (fun c => (pyStr (assocGet c row)).data)

/-- Python ASCII lowering of the sort key's name component:
`(pb.get("Name") or "").lower()`. On a truthy non-string name the source
would raise `AttributeError`; the pipeline only ever stores string or null
names, and the embedding returns `[]` on the unreachable branches. -/
def lowerVal (v : Val) : List Char :=
  match pyOr v (Val.vstr "") with
  | .vstr s => s.data.map Char.toLower
  | _ => []

/-- `_pb_sort_key(pb)` (app.py lines 302-303): default/standard catalogs
first, then case-insensitive name. -/
def _pb_sort_key (pb : Catalog) : Nat × List Char :=
  (if truthy pb.IsStandard then 0 else 1, lowerVal pb.Name)

/-- Strict code-point lexicographic order on character lists (Python string
`<`; `Char`'s order is code-point order). -/
def lexLt : List Char → List Char → Bool
  | [], [] => false
  | [], _ :: _ => true
  | _ :: _, [] => false
  | a :: as, b :: bs =>
      if a < b then true
      else if a = b then lexLt as bs
      else false

/-- Python `<` on the two-part sort key (tuple lexicographic order). -/
def keyLt (a b : Nat × List Char) : Bool :=
  a.1 < b.1 || (a.1 = b.1 && lexLt a.2 b.2)

/-- The non-strict total preorder equivalent to Python's `sorted` with
`_pb_sort_key`: `a` may precede `b` iff `b`'s key is not strictly smaller. -/
def pbLe (a b : Catalog) : Bool := !(keyLt (_pb_sort_key b) (_pb_sort_key a))

/-- `a` strictly precedes `b` under `_pb_sort_key` (the `<` Python's sort
compares keys with). -/
def pbLt (a b : Catalog) : Bool := keyLt (_pb_sort_key a) (_pb_sort_key b)

/-- Insert `a` into a sorted list, after every element strictly smaller and
before everything else — so before elements with an equal key, which keeps
the sort stable when the inserted element came earlier in the input. -/
def insertSorted (lt : α → α → Bool) (a : α) : List α → List α
  | [] => [a]
  | b :: rest => if lt b a then b :: insertSorted lt a rest else a :: b :: rest

/-- A stable ascending sort by the strict comparison `lt`: Python's `sorted`
is specified as exactly that (stable, ascending, comparing with `<`), so any
stable sort is extensionally the embedding of `sorted`; this one evaluates
inside the kernel. -/
def pySorted (lt : α → α → Bool) : List α → List α
  | [] => []
  | a :: rest => insertSorted lt a (pySorted lt rest)

/-- `sorted(pricebooks_map.values(), key=_pb_sort_key)` (app.py line 305). -/
def sortPricebooks (m : PBMap) : List Catalog :=
  pySorted pbLt (m.map Prod.snd)

/-- The hierarchical output document (app.py lines 308-318); the wall-clock
`exported_at` timestamp is outside the model. -/
structure Document where
  pricebook_count : Nat
  total_entry_count : Nat
  multi_currency : Bool
  included_custom_fields_pbe : List String
  included_custom_fields_p2 : List String
  pricebooks : List Catalog
deriving DecidableEq, Repr

/-- The document finalizer (app.py lines 302-318). -/
def buildDocument (cfg : Config) (m : PBMap) : Document :=
  let pricebooks := sortPricebooks m
  { pricebook_count := pricebooks.length
    total_entry_count := (pricebooks.map (fun pb => pb.Entries.length)).sum
    multi_currency := cfg.include_currency
    included_custom_fields_pbe := cfg.pbe_custom_fields
    included_custom_fields_p2 := cfg.product2_custom_fields
    pricebooks := pricebooks }

/-- The happy-path pass of `main` from the preload through the finalized
document: preload the catalog listing, stream the records, finalize. -/
def runMain (cfg : Config) (pbs : List PBRecord) (records : List SRecord) :
    Document × LoopState :=
  let st := runLoop cfg (initState pbs) records
  (buildDocument cfg st.pricebooks_map, st)

/-- `", ".join(fields)`. -/
def joinComma : List String → String
  | [] => ""
  | [f] => f
  | f :: rest => f ++ ", " ++ joinComma rest

/-- `build_all_pricebooks_soql()` (app.py lines 71-76). -/
def build_all_pricebooks_soql : String :=
  joinComma ["Id", "Name", "IsActive", "IsStandard", "Description",
    "CreatedDate", "LastModifiedDate"] |> (fun fs => "SELECT " ++ fs ++ " FROM Pricebook2")

/-- `build_flat_pbe_soql(...)` (app.py lines 78-95): the joined entry query,
optionally extended with the currency column and the discovered custom
columns, optionally restricted to one price book. -/
def build_flat_pbe_soql (include_currency_iso : Bool)
    (pbe_custom_fields product2_custom_fields : List String)
    (pricebook2_id : Option String) : String :=
  let fields :=
    ["Id", "Pricebook2Id", "Product2Id", "UnitPrice", "IsActive", "UseStandardPrice",
     "CreatedDate", "LastModifiedDate",
     "Pricebook2.Id", "Pricebook2.Name", "Pricebook2.IsActive", "Pricebook2.IsStandard",
     "Pricebook2.Description", "Pricebook2.CreatedDate", "Pricebook2.LastModifiedDate",
     "Product2.Name", "Product2.ProductCode", "Product2.Family", "Product2.IsActive",
     "Product2.Description"]
    ++ (if include_currency_iso then ["CurrencyIsoCode"] else [])
    ++ pbe_custom_fields
    ++ product2_custom_fields.map (fun f => "Product2." ++ f)
  let soql := "SELECT " ++ joinComma fields ++ " FROM PricebookEntry"
  match pricebook2_id with
  | some pid => soql ++ " WHERE Pricebook2Id = '" ++ pid ++ "'"
  | none => soql

/-- One field descriptor from a metadata `describe()` result (app.py lines
60-67): `name` is `f.get("name")` (a string or null in a describe payload),
`deprecatedAndHidden` is `f.get("deprecatedAndHidden")` (a boolean when
present), and `queryable` is `some b` exactly when the `"queryable"` key is
present, carrying its boolean value. -/
structure FieldDesc where
  name : Option String
  deprecatedAndHidden : Option Bool
  queryable : Option Bool
deriving DecidableEq, Repr

/-- `discover_custom_fields` (app.py lines 57-69): the filtering pass over
`desc["fields"]`, with each `continue` of the source as a skip. -/
def discover_custom_fields : List FieldDesc → List String
  | [] => []
  | f :: rest =>
    match f.name with
    | none => discover_custom_fields rest
    | some name =>
      if name = "" then discover_custom_fields rest
      else if !(endsWithL name.data "__c".data) then discover_custom_fields rest
      else if f.deprecatedAndHidden.getD false then discover_custom_fields rest
      else if (match f.queryable with | some q => !q | none => false) then
        discover_custom_fields rest
      else name :: discover_custom_fields rest

/-- The claim's characterization of the schema discoverer, written from the
spec's words: keep exactly the field names that end with the
runtime-extended suffix, are not flagged deprecated/hidden, and either
report queryable as true or omit the flag entirely. -/
def specDiscoverKeep (f : FieldDesc) : Option String :=
  match f.name with
  | some n =>
      if endsWithL n.data "__c".data
         && !(f.deprecatedAndHidden.getD false)
         && (f.queryable = none || f.queryable = some true) then some n
      else none
  | none => none

/-- The outcome of one query round-trip against the record source, as the
distinguishable fault classes of §6 of the spec: success, a malformed-query
fault carrying its message, an authentication fault, or a network fault. -/
inductive QueryOutcome where
  | ok
  | malformed (msg : String)
  | authFailed (msg : String)
  | network (msg : String)
deriving DecidableEq, Repr

/-- A fault propagating out of `detect_multi_currency`. -/
inductive ProbeFault where
  | malformed (msg : String)
  | authFailed (msg : String)
  | network (msg : String)
deriving DecidableEq, Repr

/-- What a call of the capability probe does: return a boolean, or let a
fault escape. -/
inductive ProbeResult where
  | ok (b : Bool)
  | raise (f : ProbeFault)
deriving DecidableEq, Repr

/-- Python `needle in hay` on character lists. -/
def strContains (hay needle : List Char) : Bool :=
  match hay with
  | [] => needle.isPrefixOf []
  | _ :: rest => needle.isPrefixOf hay || strContains rest needle

/-- The error-message signature keyed by the probe's `false` branch. -/
def currencySignature : String :=
  "No such column 'CurrencyIsoCode' on entity 'PricebookEntry'"

/-- `detect_multi_currency` (app.py lines 97-105): `True` on probe success;
on a malformed-query fault, `False` exactly when the message contains the
known signature, re-raise otherwise; any other fault propagates out of the
`except SalesforceMalformedRequest` clause. -/
def detect_multi_currency (probe : QueryOutcome) : ProbeResult :=
  match probe with
  | .ok => .ok true
  | .malformed msg =>
      if strContains msg.data currencySignature.data then .ok false
      else .raise (.malformed msg)
  | .authFailed msg => .raise (.authFailed msg)
  | .network msg => .raise (.network msg)

/-! ### The `csv` module, at character level

The writer of app.py lines 188-196 uses `QUOTE_ALL`, `quotechar='"'`,
`doublequote` on (the default), `escapechar='\\'`, `lineterminator='\n'`.
With those settings CPython's `_csv` writer quotes every cell, doubles every
embedded quote character, and prefixes every embedded escape character with
itself. The re-reader of line 287 (`csv.reader(fin)`) and the reader/writer
pair of lines 287-290 use the default dialect: `doublequote` on and NO
escapechar, so a backslash is ordinary data on the way back in, and the
derived writer quotes only when needed (`QUOTE_MINIMAL`). -/

/-- The per-character escaping the `QUOTE_ALL` + `escapechar='\\'` writer
applies inside a quoted cell: quotes doubled (`doublequote`), the escape
character prefixed with itself. -/
def escQA (c : Char) : List Char :=
  if c = '"' then ['"', '"']
  else if c = '\\' then ['\\', '\\']
  else [c]

/-- The per-character escaping the default-dialect writer applies inside a
quoted cell: quotes doubled, nothing else touched. -/
def escQ (c : Char) : List Char :=
  if c = '"' then ['"', '"'] else [c]

/-- What one pass through the write-then-default-reread pipeline does to a
cell: each backslash comes back doubled (the writer escapes it, the
default-dialect reader has no escapechar and keeps both characters). -/
def escBS (s : List Char) : List Char :=
  s.flatMap (fun c => if c = '\\' then ['\\', '\\'] else [c])

/-- One cell as written under `QUOTE_ALL` with `doublequote` and
`escapechar='\\'`: wrapped in quotes, embedded quotes doubled, embedded
backslashes doubled. -/
def quoteAllField (s : List Char) : List Char :=
  '"' :: (s.flatMap escQA) ++ ['"']

/-- Join cells with a one-character delimiter. -/
def joinCells (d : Char) : List (List Char) → List Char
  | [] => []
  | [c] => c
  | c :: rest => c ++ d :: joinCells d rest

/-- One physical line written by the `QUOTE_ALL` writer. -/
def writeRowQuoteAll (cells : List (List Char)) : List Char :=
  joinCells ',' (cells.map quoteAllField) ++ ['\n']

/-- The whole file written by the `QUOTE_ALL` writer. -/
def writeCsvQuoteAll (rows : List (List (List Char))) : List Char :=
  rows.flatMap writeRowQuoteAll

/-- Whether `QUOTE_MINIMAL` must quote a cell: it contains the delimiter,
the quote character, or a character of the configured line terminator —
here `'\n'` (app.py line 288 sets `lineterminator="\n"`). A bare carriage
return is NOT quoted by CPython under this configuration and corrupts the
derived file. -/
def needsQuote (d : Char) (s : List Char) : Bool :=
  s.any (fun c => c = d || c = '"' || c = '\n')

/-- One cell as written by the default-dialect (`QUOTE_MINIMAL`,
`doublequote`, no escapechar) writer. -/
def minimalField (d : Char) (s : List Char) : List Char :=
  if needsQuote d s then '"' :: (s.flatMap escQ) ++ ['"'] else s

/-- One physical line written by the `QUOTE_MINIMAL` writer. -/
def writeRowMinimal (d : Char) (cells : List (List Char)) : List Char :=
  joinCells d (cells.map (minimalField d)) ++ ['\n']

/-- The whole file written by the `QUOTE_MINIMAL` writer (the derived
tab-delimited emitter of app.py lines 284-290 with `d = '\t'`). -/
def writeCsvMinimal (d : Char) (rows : List (List (List Char))) : List Char :=
  rows.flatMap (writeRowMinimal d)

/-- The default-dialect reader's tokenizer states (CPython `_csv` states;
`afterCR` covers `EAT_CRNL`, which under `newline=''` line splitting can
only ever consume the `'\n'` of a `'\r\n'` pair before the next line
starts). -/
inductive RState where
  | startRecord
  | startField
  | inField
  | inQuoted
  | quoteInQuoted
  | afterCR
deriving DecidableEq, Repr

/-- The flush of a pending record at end of input: nothing pending in
`startRecord`/`afterCR`; otherwise the pending field closes the last record
(CPython's non-strict end-of-data behavior). -/
def csvFlush (st : RState) (field : List Char) (row : List (List Char)) :
    List (List (List Char)) :=
  match st with
  | .startRecord => []
  | .afterCR => []
  | _ => [row ++ [field]]

/-- The default-dialect reader (`doublequote` on, no escapechar), as a char
state machine: `field` is the cell under construction, `row` the completed
cells of the current record. Records end at `'\n'`, `'\r'`, or `'\r\n'`. -/
def csvParseAux (d : Char) (st : RState) (field : List Char)
    (row : List (List Char)) : List Char → List (List (List Char))
  | [] => csvFlush st field row
  | c :: rest =>
    match st with
    | .startRecord =>
      if c = '\n' then [] :: csvParseAux d .startRecord [] [] rest
      else if c = '\r' then [] :: csvParseAux d .afterCR [] [] rest
      else if c = '"' then csvParseAux d .inQuoted [] [] rest
      else if c = d then csvParseAux d .startField [] [[]] rest
      else csvParseAux d .inField [c] [] rest
    | .afterCR =>
      if c = '\n' then csvParseAux d .startRecord [] [] rest
      else if c = '\r' then [] :: csvParseAux d .afterCR [] [] rest
      else if c = '"' then csvParseAux d .inQuoted [] [] rest
      else if c = d then csvParseAux d .startField [] [[]] rest
      else csvParseAux d .inField [c] [] rest
    | .startField =>
      if c = '\n' then (row ++ [[]]) :: csvParseAux d .startRecord [] [] rest
      else if c = '\r' then (row ++ [[]]) :: csvParseAux d .afterCR [] [] rest
      else if c = '"' then csvParseAux d .inQuoted [] row rest
      else if c = d then csvParseAux d .startField [] (row ++ [[]]) rest
      else csvParseAux d .inField [c] row rest
    | .inField =>
      if c = '\n' then (row ++ [field]) :: csvParseAux d .startRecord [] [] rest
      else if c = '\r' then (row ++ [field]) :: csvParseAux d .afterCR [] [] rest
      else if c = d then csvParseAux d .startField [] (row ++ [field]) rest
      else csvParseAux d .inField (field ++ [c]) row rest
    | .inQuoted =>
      if c = '"' then csvParseAux d .quoteInQuoted field row rest
      else csvParseAux d .inQuoted (field ++ [c]) row rest
    | .quoteInQuoted =>
      if c = '"' then csvParseAux d .inQuoted (field ++ ['"']) row rest
      else if c = d then csvParseAux d .startField [] (row ++ [field]) rest
      else if c = '\n' then (row ++ [field]) :: csvParseAux d .startRecord [] [] rest
      else if c = '\r' then (row ++ [field]) :: csvParseAux d .afterCR [] [] rest
      else csvParseAux d .inField (field ++ [c]) row rest

/-- `list(csv.reader(...))` with the default dialect and delimiter `d`. -/
def csvParse (d : Char) (input : List Char) : List (List (List Char)) :=
  csvParseAux d .startRecord [] [] input

/-- The header cells written by `writer.writeheader()` (app.py line 197). -/
def headerCells (cfg : Config) : List (List Char) :=
  (header_cols cfg).map String.data

/-- The physical rows of the flat CSV file: the header row, then one row of
cells per emitted record row. -/
def csvFileRows (cfg : Config) (st : LoopState) : List (List (List Char)) :=
  headerCells cfg :: st.csv_rows.map (rowCells cfg)

/-- The character content of the flat CSV file. -/
def csvFileText (cfg : Config) (st : LoopState) : List Char :=
  writeCsvQuoteAll (csvFileRows cfg st)

/-- The derived-format emitter (app.py lines 284-290): re-read the CSV file
with the default dialect, re-write every parsed row tab-delimited. -/
def tsvFileText (cfg : Config) (st : LoopState) : List Char :=
  writeCsvMinimal '\t' (csvParse ',' (csvFileText cfg st))

/-- Every nested entry of a finalized catalog array, tagged with the
identity of the catalog holding it. -/
def docPairs (cats : List Catalog) : List (Val × Entry) :=
  cats.flatMap (fun c => c.Entries.map (fun e => (c.Id, e)))

/-- The observable outcome of one `main` invocation under the `__main__`
wrapper (app.py lines 326-334): which files hold content, and the process
exit code. -/
structure RunOutcome where
  csv_file : Option (List (List (List Char)))
  tsv_file : Option (List Char)
  json_doc : Option Document
  exit_code : Nat
deriving DecidableEq, Repr

/-- `main` under the `__main__` wrapper, with the record stream modelled as
the records successfully yielded before the source either ends the stream
(`fault = none`) or raises a malformed-query fault (`fault = some msg`).
On a fault the `try` of lines 199-281 re-raises, the `with` block closes the
CSV sink holding the header and the rows emitted so far, the TSV and JSON
passes never run, and the top-level handler calls `sys.exit(1)`. -/
def mainRun (cfg : Config) (pbs : List PBRecord) (records : List SRecord)
    (fault : Option String) : RunOutcome :=
  let st := runLoop cfg (initState pbs) records
  match fault with
  | some _ =>
      { csv_file := some (csvFileRows cfg st)
        tsv_file := none
        json_doc := none
        exit_code := 1 }
  | none =>
      { csv_file := some (csvFileRows cfg st)
        tsv_file := some (tsvFileText cfg st)
        json_doc := some (buildDocument cfg st.pricebooks_map)
        exit_code := 0 }

/-! ### Derived observables of the catalog index -/


/-- The catalog index after the whole happy-path run. -/
def mainMap (cfg : Config) (pbs : List PBRecord) (records : List SRecord) : PBMap :=
  (runLoop cfg (initState pbs) records).pricebooks_map

/-- The three catalogs of the spec's sort example, as rows of the catalog
listing: Zeta and alpha non-standard, Base standard. -/
def zetaPB : PBRecord :=
  ⟨Val.vstr "z", Val.vstr "Zeta", Val.vbool true, Val.vbool false,
   Val.vnull, Val.vnull, Val.vnull⟩

def alphaPB : PBRecord :=
  ⟨Val.vstr "a", Val.vstr "alpha", Val.vbool true, Val.vbool false,
   Val.vnull, Val.vnull, Val.vnull⟩

def basePB : PBRecord :=
  ⟨Val.vstr "b", Val.vstr "Base", Val.vbool true, Val.vbool true,
   Val.vnull, Val.vnull, Val.vnull⟩

/-- A record with an absent parent sub-object, used to witness C6. -/
def r6 : SRecord :=
  { Id := .vstr "e1", Pricebook2Id := .vstr "PB9", Product2Id := .vstr "p1",
    UnitPrice := .vnum 5, IsActive := .vbool true, UseStandardPrice := .vbool false,
    CreatedDate := .vnull, LastModifiedDate := .vnull, CurrencyIsoCode := .vnull,
    Pricebook2 := none, Product2 := none, custom := [] }

/-- The row of cells (containing a comma, a quote, a newline, and a tab)
used to witness the amended C3. -/
def rows0 : List (List (List Char)) :=
  [[['a', ',', 'b'], ['c', '"', 'd'], ['e', '\n', 'f'], ['g', '\t', 'h']]]


/-- The key list of the catalog dict, in insertion order. -/
def mapKeys (m : PBMap) : List Val := m.map Prod.fst

/-- The total number of nested entries held by the catalog dict. -/
def entriesTotal (m : PBMap) : Nat :=
  (m.map (fun kc => kc.2.Entries.length)).sum

/-- Every nested entry of the index, tagged with the identity of the catalog
holding it. -/
def nestedPairs (m : PBMap) : List (Val × Entry) :=
  m.flatMap (fun kc => kc.2.Entries.map (fun e => (kc.1, e)))

/-- The entry list held under key `k`, empty when the key is absent. -/
def entriesAt (m : PBMap) (k : Val) : List Entry :=
  ((mapLookup m k).map Catalog.Entries).getD []

/-- Well-formedness that Python dict semantics gives `pricebooks_map` for
free: unique keys, and every stored catalog's `Id` equal to its key. -/
def WFMap (m : PBMap) : Prop :=
  (mapKeys m).Nodup ∧ ∀ p ∈ m, p.2.Id = p.1

/-- A catalog materialized from a record with an absent parent sub-object:
every optional attribute is null. -/
def attrsNull (c : Catalog) : Prop :=
  c.Name = Val.vnull ∧ c.IsActive = Val.vnull ∧ c.IsStandard = Val.vnull
  ∧ c.Description = Val.vnull ∧ c.CreatedDate = Val.vnull
  ∧ c.LastModifiedDate = Val.vnull

/-- The catalog stored under `k`, if any, has all optional attributes null. -/
def attrsNullAt (m : PBMap) (k : Val) : Prop :=
  ∀ c, mapLookup m k = some c → attrsNull c

/-! ### C4: the capability probe -/

/-- C4: the capability probe returns `false` exactly on a malformed-query
fault whose message contains the `CurrencyIsoCode`-column signature, returns
`true` when the probe query succeeds, and re-raises every other fault
(malformed with a different message, authentication failure, network fault)
instead of interpreting it as capability absent. -/
theorem detect_multi_currency_spec :
    detect_multi_currency .ok = .ok true
    ∧ (∀ msg : String, strContains msg.data currencySignature.data = true →
        detect_multi_currency (.malformed msg) = .ok false)
    ∧ (∀ msg : String, strContains msg.data currencySignature.data = false →
        detect_multi_currency (.malformed msg) = .raise (.malformed msg))
    ∧ (∀ msg : String, detect_multi_currency (.authFailed msg) = .raise (.authFailed msg))
    ∧ (∀ msg : String, detect_multi_currency (.network msg) = .raise (.network msg))
    ∧ (∀ probe : QueryOutcome, detect_multi_currency probe = .ok false →
        ∃ msg, probe = .malformed msg
          ∧ strContains msg.data currencySignature.data = true) := by
  refine ⟨rfl, ?_, ?_, fun _ => rfl, fun _ => rfl, ?_⟩
  · intro msg h
    simp [detect_multi_currency, h]
  · intro msg h
    simp [detect_multi_currency, h]
  · intro probe h
    cases probe with
    | ok => simp [detect_multi_currency] at h
    | malformed msg =>
        refine ⟨msg, rfl, ?_⟩
        by_contra hc
        simp [detect_multi_currency, Bool.not_eq_true] at h hc
        rw [hc] at h
        simp at h
    | authFailed msg => simp [detect_multi_currency] at h
    | network msg => simp [detect_multi_currency] at h

/-- Witness for C4: the probe at concrete faults — a message carrying the
signature yields `false`, an unrelated message re-raises. -/
theorem detect_multi_currency_spec_witness :
    detect_multi_currency (.malformed ("A " ++ currencySignature ++ " B")) = .ok false
    ∧ detect_multi_currency (.malformed "bad field Foo") = .raise (.malformed "bad field Foo") :=
  ⟨detect_multi_currency_spec.2.1 _ (by decide),
   detect_multi_currency_spec.2.2.1 _ (by decide)⟩

/-! ### C8: the schema discoverer -/

/-- C8: for any describe result, the schema discoverer returns exactly the
field names that end with the runtime-extended suffix `__c`, are not flagged
deprecated/hidden, and either report queryable as true or omit the queryable
flag entirely (an omitted flag counts as queryable), in describe order. -/
theorem discover_custom_fields_spec (fields : List FieldDesc) :
    discover_custom_fields fields = fields.filterMap specDiscoverKeep := by
  induction fields with
  | nil => rfl
  | cons f rest ih =>
    cases hn : f.name with
    | none => simp [discover_custom_fields, specDiscoverKeep, hn, ih]
    | some name =>
      by_cases hempty : name = ""
      · subst hempty
        have hsuf : endsWithL "".data "__c".data = false := by decide
        simp [discover_custom_fields, specDiscoverKeep, hn, hsuf, ih]
      · by_cases hsuf : endsWithL name.data "__c".data = true
        · by_cases hdep : f.deprecatedAndHidden.getD false = true
          · simp [discover_custom_fields, specDiscoverKeep, hn, hempty, hsuf, hdep, ih]
          · cases hq : f.queryable with
            | none =>
                simp [discover_custom_fields, specDiscoverKeep, hn, hempty, hsuf, hdep, hq, ih]
            | some q =>
                cases q with
                | false =>
                    simp [discover_custom_fields, specDiscoverKeep, hn, hempty, hsuf, hdep, hq, ih]
                | true =>
                    simp [discover_custom_fields, specDiscoverKeep, hn, hempty, hsuf, hdep, hq, ih]
        · simp [discover_custom_fields, specDiscoverKeep, hn, hempty, hsuf, ih]

/-! ### Dict lemmas -/

theorem mapLookup_append_of_none {m : PBMap} {k : Val} (l : PBMap)
    (h : mapLookup m k = none) : mapLookup (m ++ l) k = mapLookup l k := by
  induction m with
  | nil => rfl
  | cons p rest ih =>
    obtain ⟨k0, c0⟩ := p
    by_cases hk : k0 = k
    · simp [mapLookup, hk] at h
    · simp [mapLookup, hk] at h ⊢
      exact ih h

theorem mapLookup_append_of_some {m : PBMap} {k : Val} {c : Catalog} (l : PBMap)
    (h : mapLookup m k = some c) : mapLookup (m ++ l) k = some c := by
  induction m with
  | nil => simp [mapLookup] at h
  | cons p rest ih =>
    obtain ⟨k0, c0⟩ := p
    by_cases hk : k0 = k
    · simp [mapLookup, hk] at h ⊢
      exact h
    · simp [mapLookup, hk] at h ⊢
      exact ih h

theorem mapKeys_cons (k0 : Val) (c0 : Catalog) (rest : PBMap) :
    mapKeys ((k0, c0) :: rest) = k0 :: mapKeys rest := rfl

theorem mapLookup_eq_none_iff {m : PBMap} {k : Val} :
    mapLookup m k = none ↔ k ∉ mapKeys m := by
  induction m with
  | nil => simp [mapLookup, mapKeys]
  | cons p rest ih =>
    obtain ⟨k0, c0⟩ := p
    by_cases hk : k0 = k
    · subst hk
      simp [mapLookup, mapKeys_cons]
    · rw [show mapLookup ((k0, c0) :: rest) k = mapLookup rest k by simp [mapLookup, hk]]
      rw [ih, mapKeys_cons]
      constructor
      · intro hn hmem
        rcases List.mem_cons.mp hmem with h | h
        · exact hk h.symm
        · exact hn h
      · intro hn h
        exact hn (List.mem_cons_of_mem _ h)

theorem mapLookup_cons_self {k : Val} {c : Catalog} {rest : PBMap} :
    mapLookup ((k, c) :: rest) k = some c := by
  simp [mapLookup]

theorem mapKeys_append (m l : PBMap) : mapKeys (m ++ l) = mapKeys m ++ mapKeys l := by
  simp [mapKeys]

theorem mapKeys_mapAppendEntry (m : PBMap) (k : Val) (e : Entry) :
    mapKeys (mapAppendEntry m k e) = mapKeys m := by
  induction m with
  | nil => rfl
  | cons p rest ih =>
    obtain ⟨k0, c0⟩ := p
    by_cases hk : k0 = k
    · simp [mapAppendEntry, mapKeys, hk]
    · simp [mapAppendEntry, mapKeys, hk] at ih ⊢
      exact ih

theorem mapLookup_mapAppendEntry (m : PBMap) (k : Val) (e : Entry) (q : Val) :
    mapLookup (mapAppendEntry m k e) q =
      if q = k then
        (mapLookup m k).map (fun c => { c with Entries := c.Entries ++ [e] })
      else mapLookup m q := by
  induction m with
  | nil => simp [mapAppendEntry, mapLookup]
  | cons p rest ih =>
    obtain ⟨k0, c0⟩ := p
    by_cases hk : k0 = k
    · subst hk
      by_cases hq : q = k0
      · subst hq
        simp [mapAppendEntry, mapLookup]
      · have hq0 : ¬k0 = q := fun h => hq h.symm
        simp [mapAppendEntry, mapLookup, hq, hq0]
    · by_cases hq : q = k0
      · subst hq
        simp [mapAppendEntry, mapLookup, hk]
      · have hq0 : ¬k0 = q := fun h => hq h.symm
        simp [mapAppendEntry, mapLookup, hk, hq0, ih]

theorem entriesTotal_append (m l : PBMap) :
    entriesTotal (m ++ l) = entriesTotal m + entriesTotal l := by
  simp [entriesTotal]

theorem entriesTotal_mapAppendEntry {m : PBMap} {k : Val} {c : Catalog} (e : Entry)
    (h : mapLookup m k = some c) :
    entriesTotal (mapAppendEntry m k e) = entriesTotal m + 1 := by
  induction m with
  | nil => simp [mapLookup] at h
  | cons p rest ih =>
    obtain ⟨k0, c0⟩ := p
    by_cases hk : k0 = k
    · simp [mapAppendEntry, entriesTotal, hk]
      omega
    · simp [mapLookup, hk] at h
      simp [mapAppendEntry, entriesTotal, hk] at ih ⊢
      have := ih h
      omega

theorem nestedPairs_append (m l : PBMap) :
    nestedPairs (m ++ l) = nestedPairs m ++ nestedPairs l := by
  simp [nestedPairs]

theorem nestedPairs_cons (k0 : Val) (c0 : Catalog) (rest : PBMap) :
    nestedPairs ((k0, c0) :: rest) =
      c0.Entries.map (fun e => (k0, e)) ++ nestedPairs rest := by
  simp [nestedPairs]

theorem nestedPairs_mapAppendEntry {m : PBMap} {k : Val} {c : Catalog} (e : Entry)
    (h : mapLookup m k = some c) :
    (nestedPairs (mapAppendEntry m k e)).Perm ((k, e) :: nestedPairs m) := by
  induction m with
  | nil => simp [mapLookup] at h
  | cons p rest ih =>
    obtain ⟨k0, c0⟩ := p
    by_cases hk : k0 = k
    · subst hk
      rw [show mapAppendEntry ((k0, c0) :: rest) k0 e
            = (k0, { c0 with Entries := c0.Entries ++ [e] }) :: rest by
          simp [mapAppendEntry]]
      rw [nestedPairs_cons, nestedPairs_cons]
      simp only [List.map_append, List.map_cons, List.map_nil, List.append_assoc,
        List.singleton_append]
      exact List.perm_middle
    · simp [mapLookup, hk] at h
      rw [show mapAppendEntry ((k0, c0) :: rest) k e
            = (k0, c0) :: mapAppendEntry rest k e by simp [mapAppendEntry, hk]]
      rw [nestedPairs_cons, nestedPairs_cons]
      refine List.Perm.trans (List.Perm.append_left _ (ih h)) ?_
      exact List.perm_middle

theorem mapLookup_mapSet (m : PBMap) (k : Val) (c : Catalog) (q : Val) :
    mapLookup (mapSet m k c) q = if q = k then some c else mapLookup m q := by
  induction m with
  | nil =>
    by_cases hq : q = k
    · simp [mapSet, mapLookup, hq]
    · have hkq : ¬k = q := fun h => hq h.symm
      simp [mapSet, mapLookup, hq, hkq]
  | cons p rest ih =>
    obtain ⟨k0, c0⟩ := p
    by_cases hk : k0 = k
    · subst hk
      by_cases hq : q = k0
      · subst hq
        simp [mapSet, mapLookup]
      · have hkq : ¬k0 = q := fun h => hq h.symm
        simp [mapSet, mapLookup, hq, hkq]
    · by_cases hq : q = k0
      · subst hq
        simp [mapSet, mapLookup, hk]
      · have hkq : ¬k0 = q := fun h => hq h.symm
        simp [mapSet, mapLookup, hk, hkq, ih]

theorem mem_mapKeys_mapSet (m : PBMap) (k : Val) (c : Catalog) (q : Val) :
    q ∈ mapKeys (mapSet m k c) ↔ q ∈ mapKeys m ∨ q = k := by
  induction m with
  | nil => simp [mapSet, mapKeys]
  | cons p rest ih =>
    obtain ⟨k0, c0⟩ := p
    by_cases hk : k0 = k
    · subst hk
      rw [show mapSet ((k0, c0) :: rest) k0 c = (k0, c) :: rest by simp [mapSet]]
      rw [mapKeys_cons, mapKeys_cons]
      simp [List.mem_cons]
      tauto
    · rw [show mapSet ((k0, c0) :: rest) k c = (k0, c0) :: mapSet rest k c by
        simp [mapSet, hk]]
      rw [mapKeys_cons, mapKeys_cons]
      simp [List.mem_cons, ih, or_assoc]

theorem nodup_mapKeys_mapSet {m : PBMap} (k : Val) (c : Catalog)
    (h : (mapKeys m).Nodup) : (mapKeys (mapSet m k c)).Nodup := by
  induction m with
  | nil => simp [mapSet, mapKeys]
  | cons p rest ih =>
    obtain ⟨k0, c0⟩ := p
    rw [mapKeys_cons] at h
    by_cases hk : k0 = k
    · subst hk
      rw [show mapSet ((k0, c0) :: rest) k0 c = (k0, c) :: rest by simp [mapSet]]
      rw [mapKeys_cons]
      exact h
    · rw [show mapSet ((k0, c0) :: rest) k c = (k0, c0) :: mapSet rest k c by
        simp [mapSet, hk]]
      rw [mapKeys_cons]
      refine List.Nodup.cons ?_ (ih (List.Nodup.of_cons h))
      intro hmem
      rcases (mem_mapKeys_mapSet rest k c k0).mp hmem with hm | he
      · exact (List.nodup_cons.mp h).1 hm
      · exact hk he

theorem mapSet_forall {P : Val × Catalog → Prop} {m : PBMap} {k : Val} {c : Catalog}
    (hm : ∀ p ∈ m, P p) (hc : P (k, c)) : ∀ p ∈ mapSet m k c, P p := by
  induction m with
  | nil =>
    intro p hp
    simp [mapSet] at hp
    subst hp
    exact hc
  | cons q rest ih =>
    obtain ⟨k0, c0⟩ := q
    by_cases hk : k0 = k
    · subst hk
      rw [show mapSet ((k0, c0) :: rest) k0 c = (k0, c) :: rest by simp [mapSet]]
      intro p hp
      rcases List.mem_cons.mp hp with h | h
      · subst h
        exact hc
      · exact hm p (List.mem_cons_of_mem _ h)
    · rw [show mapSet ((k0, c0) :: rest) k c = (k0, c0) :: mapSet rest k c by
        simp [mapSet, hk]]
      intro p hp
      rcases List.mem_cons.mp hp with h | h
      · subst h
        exact hm _ (List.mem_cons_self _ _)
      · exact ih (fun q hq => hm q (List.mem_cons_of_mem _ hq)) p h

/-! ### Preload lemmas -/

theorem preload_forall {P : Val × Catalog → Prop} (pbs : List PBRecord)
    (hpb : ∀ pb : PBRecord, P (pb.Id, preloadCatalog pb)) :
    ∀ p ∈ preload pbs, P p := by
  suffices h : ∀ (m : PBMap), (∀ p ∈ m, P p) →
      ∀ p ∈ pbs.foldl (fun m pb => mapSet m pb.Id (preloadCatalog pb)) m, P p by
    exact h [] (by simp)
  induction pbs with
  | nil => intro m hm; exact hm
  | cons pb rest ih =>
    intro m hm
    exact ih _ (mapSet_forall hm (hpb pb))

theorem mem_mapKeys_preload (pbs : List PBRecord) (k : Val) :
    k ∈ mapKeys (preload pbs) ↔ k ∈ pbs.map PBRecord.Id := by
  suffices h : ∀ (m : PBMap),
      k ∈ mapKeys (pbs.foldl (fun m pb => mapSet m pb.Id (preloadCatalog pb)) m)
        ↔ k ∈ mapKeys m ∨ k ∈ pbs.map PBRecord.Id by
    rw [preload, h []]
    simp [mapKeys]
  induction pbs with
  | nil => intro m; simp
  | cons pb rest ih =>
    intro m
    simp only [List.foldl_cons, List.map_cons, List.mem_cons]
    rw [ih, mem_mapKeys_mapSet]
    tauto

theorem nodup_mapKeys_preload (pbs : List PBRecord) :
    (mapKeys (preload pbs)).Nodup := by
  suffices h : ∀ (m : PBMap), (mapKeys m).Nodup →
      (mapKeys (pbs.foldl (fun m pb => mapSet m pb.Id (preloadCatalog pb)) m)).Nodup by
    exact h [] (by simp [mapKeys])
  induction pbs with
  | nil => intro m hm; exact hm
  | cons pb rest ih =>
    intro m hm
    exact ih _ (nodup_mapKeys_mapSet _ _ hm)

theorem preload_WF (pbs : List PBRecord) : WFMap (preload pbs) := by
  refine ⟨nodup_mapKeys_preload pbs, ?_⟩
  exact preload_forall pbs (fun pb => rfl)

theorem preload_entries_empty (pbs : List PBRecord) :
    ∀ p ∈ preload pbs, p.2.Entries = [] :=
  preload_forall pbs (fun _ => rfl)

theorem entriesTotal_eq_zero {m : PBMap} (h : ∀ p ∈ m, p.2.Entries = []) :
    entriesTotal m = 0 := by
  induction m with
  | nil => rfl
  | cons p rest ih =>
    have hp := h p (List.mem_cons_self _ _)
    have hrest := ih (fun q hq => h q (List.mem_cons_of_mem _ hq))
    simpa [entriesTotal, hp] using hrest

theorem nestedPairs_eq_nil {m : PBMap} (h : ∀ p ∈ m, p.2.Entries = []) :
    nestedPairs m = [] := by
  induction m with
  | nil => rfl
  | cons p rest ih =>
    have hp := h p (List.mem_cons_self _ _)
    obtain ⟨k0, c0⟩ := p
    rw [nestedPairs_cons]
    simp only at hp
    rw [hp]
    simp [ih (fun q hq => h q (List.mem_cons_of_mem _ hq))]

/-! ### Streaming-pass lemmas -/

theorem mapLookup_append_single_ne {m : PBMap} {k q : Val} (c : Catalog)
    (h : ¬q = k) : mapLookup (m ++ [(k, c)]) q = mapLookup m q := by
  cases hq : mapLookup m q with
  | some c0 => exact mapLookup_append_of_some _ hq
  | none =>
    rw [mapLookup_append_of_none _ hq]
    have hkq : ¬k = q := fun hh => h hh.symm
    simp [mapLookup, hkq, hq]

theorem loopStep_csv_rows (cfg : Config) (st : LoopState) (r : SRecord) :
    (loopStep cfg st r).csv_rows = st.csv_rows ++ [rowOf cfg r] := rfl

theorem loopStep_total_entry_rows (cfg : Config) (st : LoopState) (r : SRecord) :
    (loopStep cfg st r).total_entry_rows = st.total_entry_rows + 1 := rfl

theorem loopStep_map_eq (cfg : Config) (st : LoopState) (r : SRecord) :
    (loopStep cfg st r).pricebooks_map =
      mapAppendEntry
        (if (mapLookup st.pricebooks_map (pb_id_of r)).isSome then st.pricebooks_map
         else st.pricebooks_map ++ [(pb_id_of r, catalogFromRecord r)])
        (pb_id_of r) (mkEntry cfg r) := rfl

theorem loopStep_m1_lookup_some (st : LoopState) (r : SRecord) :
    ∃ c, mapLookup
        (if (mapLookup st.pricebooks_map (pb_id_of r)).isSome then st.pricebooks_map
         else st.pricebooks_map ++ [(pb_id_of r, catalogFromRecord r)])
        (pb_id_of r) = some c := by
  cases hl : mapLookup st.pricebooks_map (pb_id_of r) with
  | some c =>
    refine ⟨c, ?_⟩
    simp [hl]
  | none =>
    refine ⟨catalogFromRecord r, ?_⟩
    simp only [hl, Option.isSome_none, Bool.false_eq_true, if_false]
    rw [mapLookup_append_of_none _ hl]
    exact mapLookup_cons_self

theorem loopStep_entriesTotal (cfg : Config) (st : LoopState) (r : SRecord) :
    entriesTotal (loopStep cfg st r).pricebooks_map
      = entriesTotal st.pricebooks_map + 1 := by
  obtain ⟨c, hc⟩ := loopStep_m1_lookup_some st r
  rw [loopStep_map_eq, entriesTotal_mapAppendEntry _ hc]
  cases hl : mapLookup st.pricebooks_map (pb_id_of r) with
  | some c0 => simp [hl]
  | none =>
    simp only [hl, Option.isSome_none, Bool.false_eq_true, if_false]
    rw [entriesTotal_append]
    simp [entriesTotal, catalogFromRecord]

theorem loopStep_nestedPairs (cfg : Config) (st : LoopState) (r : SRecord) :
    (nestedPairs (loopStep cfg st r).pricebooks_map).Perm
      ((pb_id_of r, mkEntry cfg r) :: nestedPairs st.pricebooks_map) := by
  obtain ⟨c, hc⟩ := loopStep_m1_lookup_some st r
  rw [loopStep_map_eq]
  refine List.Perm.trans (nestedPairs_mapAppendEntry _ hc) ?_
  cases hl : mapLookup st.pricebooks_map (pb_id_of r) with
  | some c0 => simp [hl]
  | none =>
    simp only [hl, Option.isSome_none, Bool.false_eq_true, if_false]
    rw [nestedPairs_append]
    simp [nestedPairs, catalogFromRecord]

theorem runLoop_cons (cfg : Config) (st : LoopState) (r : SRecord)
    (records : List SRecord) :
    runLoop cfg st (r :: records) = runLoop cfg (loopStep cfg st r) records := rfl

theorem runLoop_append (cfg : Config) (st : LoopState)
    (l1 l2 : List SRecord) :
    runLoop cfg st (l1 ++ l2) = runLoop cfg (runLoop cfg st l1) l2 := by
  simp [runLoop, List.foldl_append]

theorem runLoop_total_entry_rows (cfg : Config) (st : LoopState)
    (records : List SRecord) :
    (runLoop cfg st records).total_entry_rows
      = st.total_entry_rows + records.length := by
  induction records generalizing st with
  | nil => simp [runLoop]
  | cons r rest ih =>
    rw [runLoop_cons, ih, loopStep_total_entry_rows]
    simp
    omega

theorem runLoop_csv_rows (cfg : Config) (st : LoopState) (records : List SRecord) :
    (runLoop cfg st records).csv_rows = st.csv_rows ++ records.map (rowOf cfg) := by
  induction records generalizing st with
  | nil => simp [runLoop]
  | cons r rest ih =>
    rw [runLoop_cons, ih, loopStep_csv_rows]
    simp

theorem runLoop_entriesTotal (cfg : Config) (st : LoopState)
    (records : List SRecord) :
    entriesTotal (runLoop cfg st records).pricebooks_map
      = entriesTotal st.pricebooks_map + records.length := by
  induction records generalizing st with
  | nil => simp [runLoop]
  | cons r rest ih =>
    rw [runLoop_cons, ih, loopStep_entriesTotal]
    simp
    omega

theorem runLoop_nestedPairs (cfg : Config) (st : LoopState)
    (records : List SRecord) :
    (nestedPairs (runLoop cfg st records).pricebooks_map).Perm
      (nestedPairs st.pricebooks_map
        ++ records.map (fun r => (pb_id_of r, mkEntry cfg r))) := by
  induction records generalizing st with
  | nil => simp [runLoop]
  | cons r rest ih =>
    rw [runLoop_cons]
    refine List.Perm.trans (ih (loopStep cfg st r)) ?_
    refine List.Perm.trans (List.Perm.append_right _ (loopStep_nestedPairs cfg st r)) ?_
    simp only [List.map_cons, List.cons_append]
    exact List.perm_middle.symm

theorem mapAppendEntry_forall_id {m : PBMap} {k : Val} {e : Entry}
    (hm : ∀ p ∈ m, p.2.Id = p.1) : ∀ p ∈ mapAppendEntry m k e, p.2.Id = p.1 := by
  induction m with
  | nil => simp [mapAppendEntry]
  | cons p rest ih =>
    obtain ⟨k0, c0⟩ := p
    by_cases hk : k0 = k
    · rw [show mapAppendEntry ((k0, c0) :: rest) k e
          = (k0, { c0 with Entries := c0.Entries ++ [e] }) :: rest by
        simp [mapAppendEntry, hk]]
      intro q hq
      rcases List.mem_cons.mp hq with h | h
      · subst h
        exact hm (k0, c0) (List.mem_cons_self _ _)
      · exact hm q (List.mem_cons_of_mem _ h)
    · rw [show mapAppendEntry ((k0, c0) :: rest) k e
          = (k0, c0) :: mapAppendEntry rest k e by simp [mapAppendEntry, hk]]
      intro q hq
      rcases List.mem_cons.mp hq with h | h
      · subst h
        exact hm (k0, c0) (List.mem_cons_self _ _)
      · exact ih (fun q hq => hm q (List.mem_cons_of_mem _ hq)) q h

theorem loopStep_mapKeys (cfg : Config) (st : LoopState) (r : SRecord) :
    mapKeys (loopStep cfg st r).pricebooks_map =
      if (mapLookup st.pricebooks_map (pb_id_of r)).isSome then
        mapKeys st.pricebooks_map
      else mapKeys st.pricebooks_map ++ [pb_id_of r] := by
  rw [loopStep_map_eq, mapKeys_mapAppendEntry]
  cases hl : mapLookup st.pricebooks_map (pb_id_of r) with
  | some c => simp [hl]
  | none => simp [hl, mapKeys_append, mapKeys]

theorem loopStep_WF (cfg : Config) (st : LoopState) (r : SRecord)
    (h : WFMap st.pricebooks_map) : WFMap (loopStep cfg st r).pricebooks_map := by
  obtain ⟨hnd, hid⟩ := h
  constructor
  · rw [loopStep_mapKeys]
    cases hl : mapLookup st.pricebooks_map (pb_id_of r) with
    | some c => simpa using hnd
    | none =>
      have hmem : pb_id_of r ∉ mapKeys st.pricebooks_map :=
        mapLookup_eq_none_iff.mp hl
      simp only [Option.isSome_none, Bool.false_eq_true, if_false]
      rw [List.nodup_append]
      exact ⟨hnd, List.nodup_singleton _, by simpa using hmem⟩
  · rw [loopStep_map_eq]
    refine mapAppendEntry_forall_id ?_
    cases hl : mapLookup st.pricebooks_map (pb_id_of r) with
    | some c => simpa [hl] using hid
    | none =>
      simp only [hl, Option.isSome_none, Bool.false_eq_true, if_false]
      intro p hp
      rcases List.mem_append.mp hp with hm | hm
      · exact hid p hm
      · simp at hm
        subst hm
        rfl

theorem runLoop_WF (cfg : Config) (st : LoopState) (records : List SRecord)
    (h : WFMap st.pricebooks_map) : WFMap (runLoop cfg st records).pricebooks_map := by
  induction records generalizing st with
  | nil => exact h
  | cons r rest ih => exact ih _ (loopStep_WF cfg st r h)

theorem loopStep_lookup_mono {cfg : Config} {st : LoopState} {r : SRecord} {q : Val}
    (h : (mapLookup st.pricebooks_map q).isSome) :
    (mapLookup (loopStep cfg st r).pricebooks_map q).isSome := by
  rw [loopStep_map_eq, mapLookup_mapAppendEntry]
  by_cases hq : q = pb_id_of r
  · subst hq
    obtain ⟨c, hc⟩ := loopStep_m1_lookup_some st r
    simp [hc]
  · simp only [hq, if_false]
    cases hl : mapLookup st.pricebooks_map (pb_id_of r) with
    | some c => simpa [hl] using h
    | none =>
      simp only [hl, Option.isSome_none, Bool.false_eq_true, if_false]
      rw [mapLookup_append_single_ne _ hq]
      exact h

theorem loopStep_lookup_self (cfg : Config) (st : LoopState) (r : SRecord) :
    (mapLookup (loopStep cfg st r).pricebooks_map (pb_id_of r)).isSome := by
  rw [loopStep_map_eq, mapLookup_mapAppendEntry]
  obtain ⟨c, hc⟩ := loopStep_m1_lookup_some st r
  simp [hc]

theorem runLoop_lookup_mono {cfg : Config} {st : LoopState} {records : List SRecord}
    {q : Val} (h : (mapLookup st.pricebooks_map q).isSome) :
    (mapLookup (runLoop cfg st records).pricebooks_map q).isSome := by
  induction records generalizing st with
  | nil => exact h
  | cons r rest ih => exact ih (loopStep_lookup_mono h)

theorem runLoop_lookup_of_mem {cfg : Config} {st : LoopState} {records : List SRecord}
    {r : SRecord} (h : r ∈ records) :
    (mapLookup (runLoop cfg st records).pricebooks_map (pb_id_of r)).isSome := by
  obtain ⟨l1, l2, rfl⟩ := List.append_of_mem h
  rw [runLoop_append, runLoop_cons]
  exact runLoop_lookup_mono (loopStep_lookup_self _ _ _)

theorem entriesAt_loopStep (cfg : Config) (st : LoopState) (r : SRecord) (k : Val) :
    entriesAt (loopStep cfg st r).pricebooks_map k
      = entriesAt st.pricebooks_map k
        ++ (if pb_id_of r = k then [mkEntry cfg r] else []) := by
  unfold entriesAt
  rw [loopStep_map_eq, mapLookup_mapAppendEntry]
  by_cases hk : k = pb_id_of r
  · subst hk
    simp only [if_pos rfl]
    cases hl : mapLookup st.pricebooks_map (pb_id_of r) with
    | some c => simp [hl]
    | none =>
      simp only [hl, Option.isSome_none, Bool.false_eq_true, if_false]
      rw [mapLookup_append_of_none _ hl, mapLookup_cons_self]
      simp [catalogFromRecord, hl]
  · have hk2 : ¬pb_id_of r = k := fun hh => hk hh.symm
    simp only [hk, if_false, hk2]
    cases hl : mapLookup st.pricebooks_map (pb_id_of r) with
    | some c => simp [hl]
    | none =>
      simp only [hl, Option.isSome_none, Bool.false_eq_true, if_false]
      rw [mapLookup_append_single_ne _ hk]
      simp

theorem runLoop_entriesAt (cfg : Config) (st : LoopState) (records : List SRecord)
    (k : Val) :
    entriesAt (runLoop cfg st records).pricebooks_map k
      = entriesAt st.pricebooks_map k
        ++ (records.filter (fun r => pb_id_of r == k)).map (mkEntry cfg) := by
  induction records generalizing st with
  | nil => simp [runLoop]
  | cons r rest ih =>
    rw [runLoop_cons, ih, entriesAt_loopStep]
    by_cases hr : pb_id_of r = k
    · simp [hr, List.filter_cons]
    · simp [hr, List.filter_cons]


theorem attrsNull_catalogFromRecord {r : SRecord} (h : r.Pricebook2 = none) :
    attrsNull (catalogFromRecord r) := by
  simp [catalogFromRecord, attrsNull, safe_relPB, pb_name_of, h]

theorem loopStep_attrsNullAt {cfg : Config} {st : LoopState} {r : SRecord} {k : Val}
    (hr : pb_id_of r = k → r.Pricebook2 = none)
    (h : attrsNullAt st.pricebooks_map k) :
    attrsNullAt (loopStep cfg st r).pricebooks_map k := by
  intro c hc
  rw [loopStep_map_eq, mapLookup_mapAppendEntry] at hc
  by_cases hk : k = pb_id_of r
  · rw [if_pos hk] at hc
    subst hk
    cases hl : mapLookup st.pricebooks_map (pb_id_of r) with
    | some c0 =>
      rw [hl] at hc
      simp [hl] at hc
      have h0 := h c0 hl
      rw [← hc]
      exact h0
    | none =>
      rw [hl] at hc
      simp only [Option.isSome_none, Bool.false_eq_true, if_false] at hc
      rw [mapLookup_append_of_none _ hl, mapLookup_cons_self] at hc
      simp at hc
      rw [← hc]
      exact attrsNull_catalogFromRecord (hr rfl)
  · rw [if_neg hk] at hc
    cases hl : mapLookup st.pricebooks_map (pb_id_of r) with
    | some c0 =>
      rw [hl] at hc
      simp only [Option.isSome_some, if_true] at hc
      exact h c hc
    | none =>
      rw [hl] at hc
      simp only [Option.isSome_none, Bool.false_eq_true, if_false] at hc
      rw [mapLookup_append_single_ne _ hk] at hc
      exact h c hc

theorem runLoop_attrsNullAt {cfg : Config} {st : LoopState} {records : List SRecord}
    {k : Val} (hrec : ∀ r ∈ records, pb_id_of r = k → r.Pricebook2 = none)
    (h : attrsNullAt st.pricebooks_map k) :
    attrsNullAt (runLoop cfg st records).pricebooks_map k := by
  induction records generalizing st with
  | nil => exact h
  | cons r rest ih =>
    rw [runLoop_cons]
    refine ih (fun q hq => hrec q (List.mem_cons_of_mem _ hq)) ?_
    exact loopStep_attrsNullAt (hrec r (List.mem_cons_self _ _)) h

/-! ### Order lemmas for the document finalizer -/

theorem lexLt_irrefl (a : List Char) : lexLt a a = false := by
  induction a with
  | nil => rfl
  | cons x xs ih => simp [lexLt, ih]

theorem lexLt_trans {a b c : List Char} :
    lexLt a b = true → lexLt b c = true → lexLt a c = true := by
  induction a generalizing b c with
  | nil =>
    intro h1 h2
    cases b with
    | nil => simp [lexLt] at h1
    | cons y ys =>
      cases c with
      | nil => simp [lexLt] at h2
      | cons z zs => simp [lexLt]
  | cons x xs ih =>
    intro h1 h2
    cases b with
    | nil => simp [lexLt] at h1
    | cons y ys =>
      cases c with
      | nil => simp [lexLt] at h2
      | cons z zs =>
        simp only [lexLt] at h1 h2 ⊢
        by_cases hxy : x < y
        · by_cases hyz : y < z
          · simp [lt_trans hxy hyz]
          · rw [if_neg hyz] at h2
            by_cases hyz2 : y = z
            · subst hyz2
              simp [hxy]
            · rw [if_neg hyz2] at h2
              exact absurd h2 (by simp)
        · rw [if_neg hxy] at h1
          by_cases hxy2 : x = y
          · subst hxy2
            rw [if_pos rfl] at h1
            by_cases hyz : x < z
            · simp [hyz]
            · rw [if_neg hyz] at h2
              by_cases hyz2 : x = z
              · subst hyz2
                rw [if_pos rfl] at h2
                simp [lexLt_irrefl] at *
                exact ih h1 h2
              · rw [if_neg hyz2] at h2
                exact absurd h2 (by simp)
          · rw [if_neg hxy2] at h1
            exact absurd h1 (by simp)

theorem lexLt_trichotomy (a b : List Char) :
    lexLt a b = true ∨ lexLt b a = true ∨ a = b := by
  induction a generalizing b with
  | nil =>
    cases b with
    | nil => right; right; rfl
    | cons y ys => left; simp [lexLt]
  | cons x xs ih =>
    cases b with
    | nil => right; left; simp [lexLt]
    | cons y ys =>
      by_cases hxy : x < y
      · left
        simp [lexLt, hxy]
      · by_cases hyx : y < x
        · right; left
          simp [lexLt, hyx]
        · have hx : x = y := le_antisymm (le_of_not_lt hyx) (le_of_not_lt hxy)
          subst hx
          rcases ih ys with h | h | h
          · left
            simp [lexLt, h]
          · right; left
            simp [lexLt, h]
          · right; right
            rw [h]

theorem keyLt_irrefl (a : Nat × List Char) : keyLt a a = false := by
  simp [keyLt, lexLt_irrefl]

theorem keyLt_trans {a b c : Nat × List Char} :
    keyLt a b = true → keyLt b c = true → keyLt a c = true := by
  intro h1 h2
  simp only [keyLt, Bool.or_eq_true, Bool.and_eq_true, decide_eq_true_eq] at h1 h2 ⊢
  rcases h1 with h1 | ⟨h1e, h1l⟩ <;> rcases h2 with h2 | ⟨h2e, h2l⟩
  · left; omega
  · left; omega
  · left; omega
  · right
    exact ⟨by omega, lexLt_trans h1l h2l⟩

theorem keyLt_trichotomy (a b : Nat × List Char) :
    keyLt a b = true ∨ keyLt b a = true ∨ a = b := by
  obtain ⟨n1, s1⟩ := a
  obtain ⟨n2, s2⟩ := b
  by_cases hn : n1 < n2
  · left
    simp [keyLt, hn]
  · by_cases hn2 : n2 < n1
    · right; left
      simp [keyLt, hn2]
    · have he : n1 = n2 := by omega
      subst he
      rcases lexLt_trichotomy s1 s2 with h | h | h
      · left
        simp [keyLt, h]
      · right; left
        simp [keyLt, h]
      · right; right
        rw [h]

theorem pbLt_asymm {a b : Catalog} (h : pbLt a b = true) : pbLt b a = false := by
  by_contra hc
  simp only [Bool.not_eq_false] at hc
  have := keyLt_trans (a := _pb_sort_key a) h hc
  rw [keyLt_irrefl] at this
  exact absurd this (by simp)

theorem pbLt_neg_trans {a b c : Catalog}
    (h1 : pbLt a b = false) (h2 : pbLt b c = false) : pbLt a c = false := by
  unfold pbLt at h1 h2 ⊢
  by_contra hcon
  simp only [Bool.not_eq_false] at hcon
  rcases keyLt_trichotomy (_pb_sort_key b) (_pb_sort_key c) with h | h | h
  · exact absurd h2 (by simp [h])
  · have ht := keyLt_trans hcon h
    exact absurd h1 (by simp [ht])
  · rw [← h] at hcon
    exact absurd h1 (by simp [hcon])

/-! ### Stable-sort lemmas -/

theorem insertSorted_perm (lt : α → α → Bool) (a : α) (l : List α) :
    (insertSorted lt a l).Perm (a :: l) := by
  induction l with
  | nil => exact List.Perm.refl _
  | cons b rest ih =>
    by_cases h : lt b a = true
    · rw [show insertSorted lt a (b :: rest) = b :: insertSorted lt a rest by
        simp [insertSorted, h]]
      exact List.Perm.trans (List.Perm.cons b ih) (List.Perm.swap a b rest)
    · rw [show insertSorted lt a (b :: rest) = a :: b :: rest by
        simp [insertSorted, h]]

theorem pySorted_perm (lt : α → α → Bool) (l : List α) :
    (pySorted lt l).Perm l := by
  induction l with
  | nil => exact List.Perm.refl _
  | cons a rest ih =>
    exact List.Perm.trans (insertSorted_perm lt a (pySorted lt rest)) (List.Perm.cons a ih)

theorem insertSorted_pairwise {lt : α → α → Bool}
    (hasymm : ∀ x y, lt x y = true → lt y x = false)
    (hneg : ∀ x y z, lt x y = false → lt y z = false → lt x z = false)
    (a : α) {l : List α} (hl : l.Pairwise (fun x y => lt y x = false)) :
    (insertSorted lt a l).Pairwise (fun x y => lt y x = false) := by
  induction l with
  | nil => simp [insertSorted]
  | cons b rest ih =>
    rcases List.pairwise_cons.mp hl with ⟨hb, hrest⟩
    by_cases h : lt b a = true
    · rw [show insertSorted lt a (b :: rest) = b :: insertSorted lt a rest by
        simp [insertSorted, h]]
      refine List.pairwise_cons.mpr ⟨?_, ih hrest⟩
      intro z hz
      have hz2 := (insertSorted_perm lt a rest).mem_iff.mp hz
      rcases List.mem_cons.mp hz2 with hz3 | hz3
      · subst hz3
        exact hasymm _ _ h
      · exact hb z hz3
    · rw [show insertSorted lt a (b :: rest) = a :: b :: rest by
        simp [insertSorted, h]]
      refine List.pairwise_cons.mpr ⟨?_, hl⟩
      intro z hz
      rcases List.mem_cons.mp hz with hz2 | hz2
      · subst hz2
        simpa using h
      · exact hneg z b a (hb z hz2) (by simpa using h)

theorem pySorted_pairwise {lt : α → α → Bool}
    (hasymm : ∀ x y, lt x y = true → lt y x = false)
    (hneg : ∀ x y z, lt x y = false → lt y z = false → lt x z = false)
    (l : List α) :
    (pySorted lt l).Pairwise (fun x y => lt y x = false) := by
  induction l with
  | nil => simp [pySorted]
  | cons a rest ih => exact insertSorted_pairwise hasymm hneg a ih

/-! ### Finalized-document lemmas -/

theorem sortPricebooks_perm (m : PBMap) :
    (sortPricebooks m).Perm (m.map Prod.snd) :=
  pySorted_perm pbLt (m.map Prod.snd)

theorem sortPricebooks_pairwise (m : PBMap) :
    (sortPricebooks m).Pairwise (fun a b => pbLt b a = false) :=
  @pySorted_pairwise Catalog pbLt (fun _ _ h => pbLt_asymm h)
    (fun _ _ _ h1 h2 => pbLt_neg_trans h1 h2) (m.map Prod.snd)

theorem docPairs_map_snd {m : PBMap} (h : ∀ p ∈ m, p.2.Id = p.1) :
    docPairs (m.map Prod.snd) = nestedPairs m := by
  induction m with
  | nil => rfl
  | cons p rest ih =>
    obtain ⟨k0, c0⟩ := p
    have hid : c0.Id = k0 := h (k0, c0) (List.mem_cons_self _ _)
    rw [List.map_cons, nestedPairs_cons]
    show c0.Entries.map (fun e => (c0.Id, e)) ++ docPairs (rest.map Prod.snd) = _
    rw [hid, ih (fun q hq => h q (List.mem_cons_of_mem _ hq))]

theorem mapLookup_mem {m : PBMap} {k : Val} {c : Catalog}
    (h : mapLookup m k = some c) : (k, c) ∈ m := by
  induction m with
  | nil => simp [mapLookup] at h
  | cons p rest ih =>
    obtain ⟨k0, c0⟩ := p
    by_cases hk : k0 = k
    · subst hk
      rw [mapLookup_cons_self] at h
      simp at h
      subst h
      exact List.mem_cons_self _ _
    · rw [show mapLookup ((k0, c0) :: rest) k = mapLookup rest k by
        simp [mapLookup, hk]] at h
      exact List.mem_cons_of_mem _ (ih h)

theorem mapLookup_of_mem_nodup {m : PBMap} (hnd : (mapKeys m).Nodup)
    {p : Val × Catalog} (hp : p ∈ m) : mapLookup m p.1 = some p.2 := by
  induction m with
  | nil => simp at hp
  | cons q rest ih =>
    obtain ⟨k0, c0⟩ := q
    rcases List.mem_cons.mp hp with h | h
    · subst h
      exact mapLookup_cons_self
    · have hne : ¬k0 = p.1 := by
        intro he
        rw [mapKeys_cons] at hnd
        have hmk : p.1 ∈ mapKeys rest := List.mem_map_of_mem Prod.fst h
        rw [← he] at hmk
        exact (List.nodup_cons.mp hnd).1 hmk
      rw [show mapLookup ((k0, c0) :: rest) p.1 = mapLookup rest p.1 by
        simp [mapLookup, hne]]
      rw [mapKeys_cons] at hnd
      exact ih (List.nodup_cons.mp hnd).2 h

theorem mapLookup_of_mem_WF {m : PBMap} (hwf : WFMap m) {p : Val × Catalog}
    (hp : p ∈ m) : mapLookup m p.1 = some p.2 :=
  mapLookup_of_mem_nodup hwf.1 hp

theorem entriesAt_preload (pbs : List PBRecord) (k : Val) :
    entriesAt (preload pbs) k = [] := by
  unfold entriesAt
  cases hl : mapLookup (preload pbs) k with
  | none => rfl
  | some c =>
    have hmem := mapLookup_mem hl
    have hce := preload_entries_empty pbs _ hmem
    simpa using hce


theorem runMain_fst (cfg : Config) (pbs : List PBRecord) (records : List SRecord) :
    (runMain cfg pbs records).1 = buildDocument cfg (mainMap cfg pbs records) := rfl

theorem runMain_snd (cfg : Config) (pbs : List PBRecord) (records : List SRecord) :
    (runMain cfg pbs records).2 = runLoop cfg (initState pbs) records := rfl

theorem buildDocument_pricebooks (cfg : Config) (m : PBMap) :
    (buildDocument cfg m).pricebooks = sortPricebooks m := rfl

theorem mainMap_WF (cfg : Config) (pbs : List PBRecord) (records : List SRecord) :
    WFMap (mainMap cfg pbs records) :=
  runLoop_WF cfg _ records (preload_WF pbs)

theorem runMain_pricebooks_perm (cfg : Config) (pbs : List PBRecord)
    (records : List SRecord) :
    (runMain cfg pbs records).1.pricebooks.Perm
      ((mainMap cfg pbs records).map Prod.snd) := by
  rw [runMain_fst, buildDocument_pricebooks]
  exact sortPricebooks_perm _

theorem runMain_docPairs_perm (cfg : Config) (pbs : List PBRecord)
    (records : List SRecord) :
    (docPairs (runMain cfg pbs records).1.pricebooks).Perm
      (records.map (fun r => (pb_id_of r, mkEntry cfg r))) := by
  have h1 : (docPairs (runMain cfg pbs records).1.pricebooks).Perm
      (docPairs ((mainMap cfg pbs records).map Prod.snd)) :=
    List.Perm.flatMap_right _ (runMain_pricebooks_perm cfg pbs records)
  rw [docPairs_map_snd (mainMap_WF cfg pbs records).2] at h1
  refine List.Perm.trans h1 ?_
  have h2 := runLoop_nestedPairs cfg (initState pbs) records
  rw [show nestedPairs (initState pbs).pricebooks_map = [] from
    nestedPairs_eq_nil (preload_entries_empty pbs)] at h2
  simpa using h2

theorem runMain_ids_nodup (cfg : Config) (pbs : List PBRecord)
    (records : List SRecord) :
    ((runMain cfg pbs records).1.pricebooks.map Catalog.Id).Nodup := by
  have hperm := (runMain_pricebooks_perm cfg pbs records).map Catalog.Id
  refine (List.Perm.nodup_iff hperm).mpr ?_
  have hwf := mainMap_WF cfg pbs records
  have heq : ((mainMap cfg pbs records).map Prod.snd).map Catalog.Id
      = mapKeys (mainMap cfg pbs records) := by
    rw [List.map_map]
    refine List.map_congr_left ?_
    intro p hp
    exact hwf.2 p hp
  rw [heq]
  exact hwf.1

theorem runMain_entries_char (cfg : Config) (pbs : List PBRecord)
    (records : List SRecord) :
    ∀ c ∈ (runMain cfg pbs records).1.pricebooks,
      c.Entries = (records.filter (fun r => pb_id_of r == c.Id)).map (mkEntry cfg) := by
  intro c hc
  have hc2 : c ∈ (mainMap cfg pbs records).map Prod.snd :=
    (runMain_pricebooks_perm cfg pbs records).mem_iff.mp hc
  obtain ⟨p, hp, hpc⟩ := List.mem_map.mp hc2
  have hid : c.Id = p.1 := by rw [← hpc]; exact (mainMap_WF cfg pbs records).2 p hp
  have hl : mapLookup (mainMap cfg pbs records) p.1 = some p.2 :=
    mapLookup_of_mem_WF (mainMap_WF cfg pbs records) hp
  have hAt : entriesAt (mainMap cfg pbs records) p.1 = c.Entries := by
    unfold entriesAt
    rw [hl, hpc]
    rfl
  have hrun := runLoop_entriesAt cfg (initState pbs) records p.1
  rw [show (initState pbs).pricebooks_map = preload pbs from rfl,
    entriesAt_preload] at hrun
  have hrun2 : entriesAt (mainMap cfg pbs records) p.1
      = [] ++ (records.filter (fun r => pb_id_of r == p.1)).map (mkEntry cfg) := hrun
  rw [hAt] at hrun2
  rw [hid]
  simpa using hrun2

theorem runMain_mem_of_key {cfg : Config} {pbs : List PBRecord}
    {records : List SRecord} {k : Val}
    (h : (mapLookup (mainMap cfg pbs records) k).isSome) :
    ∃ c ∈ (runMain cfg pbs records).1.pricebooks, c.Id = k := by
  obtain ⟨c, hc⟩ := Option.isSome_iff_exists.mp h
  have hmem := mapLookup_mem hc
  have hcm : c ∈ (mainMap cfg pbs records).map Prod.snd :=
    List.mem_map_of_mem Prod.snd hmem
  refine ⟨c, (runMain_pricebooks_perm cfg pbs records).mem_iff.mpr hcm, ?_⟩
  exact (mainMap_WF cfg pbs records).2 (k, c) hmem


/-! ### C1, C2: counts and the flat/nested correspondence -/

/-- C1: for every record stream, the number of data rows handed to the
tabular sink, the loop's row counter, the document's `total_entry_count`,
and the sum over all catalogs of their entry-list lengths all equal the
number of records consumed. -/
theorem c1_counts (cfg : Config) (pbs : List PBRecord) (records : List SRecord) :
    (runMain cfg pbs records).2.csv_rows.length = records.length
    ∧ (runMain cfg pbs records).2.total_entry_rows = records.length
    ∧ (runMain cfg pbs records).1.total_entry_count = records.length
    ∧ ((runMain cfg pbs records).1.pricebooks.map (fun pb => pb.Entries.length)).sum
        = records.length := by
  have hsum : ((runMain cfg pbs records).1.pricebooks.map
      (fun pb => pb.Entries.length)).sum = records.length := by
    have hperm := (runMain_pricebooks_perm cfg pbs records).map
      (fun pb => pb.Entries.length)
    rw [List.Perm.sum_eq hperm, List.map_map]
    have he : (((mainMap cfg pbs records).map
        ((fun pb => pb.Entries.length) ∘ Prod.snd)).sum) = entriesTotal (mainMap cfg pbs records) := rfl
    rw [he]
    rw [show mainMap cfg pbs records
        = (runLoop cfg (initState pbs) records).pricebooks_map from rfl]
    rw [runLoop_entriesTotal]
    rw [show (initState pbs).pricebooks_map = preload pbs from rfl]
    rw [entriesTotal_eq_zero (preload_entries_empty pbs)]
    omega
  refine ⟨?_, ?_, hsum, hsum⟩
  · rw [runMain_snd, runLoop_csv_rows]
    simp [initState]
  · rw [runMain_snd, runLoop_total_entry_rows]
    simp [initState]

/-- C2: the flat rows are exactly one row per record, in stream order, each
built from that record's resolved parent identity, parent name, and entry;
the multiset of (catalog identity, nested entry) pairs of the finalized
document equals the multiset of (resolved parent identity, entry) pairs of
the rows; and catalog identities are pairwise distinct, so each row's entry
sits nested under exactly the one catalog matching its resolved parent
identity, and conversely. -/
theorem c2_flat_nested_bijection (cfg : Config) (pbs : List PBRecord)
    (records : List SRecord) :
    (runMain cfg pbs records).2.csv_rows
        = records.map (fun r => mkRow cfg (pb_id_of r) (pb_name_of r) (mkEntry cfg r))
    ∧ (docPairs (runMain cfg pbs records).1.pricebooks).Perm
        (records.map (fun r => (pb_id_of r, mkEntry cfg r)))
    ∧ ((runMain cfg pbs records).1.pricebooks.map Catalog.Id).Nodup := by
  refine ⟨?_, runMain_docPairs_perm cfg pbs records, runMain_ids_nodup cfg pbs records⟩
  rw [runMain_snd, runLoop_csv_rows]
  simp [initState, rowOf]

/-! ### C5: the mid-stream fault -/

/-- C5: when the record source raises a malformed-query fault mid-stream,
the run exits with code 1, the tabular sink is left holding the header and
exactly the rows of the records consumed before the fault (truncated, not
cleaned up), no derived tab-delimited file is produced, and no hierarchical
document is written. -/
theorem c5_midstream_fault (cfg : Config) (pbs : List PBRecord)
    (records : List SRecord) (msg : String) :
    (mainRun cfg pbs records (some msg)).exit_code = 1
    ∧ (mainRun cfg pbs records (some msg)).csv_file
        = some (headerCells cfg :: records.map (fun r => rowCells cfg (rowOf cfg r)))
    ∧ (mainRun cfg pbs records (some msg)).tsv_file = none
    ∧ (mainRun cfg pbs records (some msg)).json_doc = none := by
  refine ⟨rfl, ?_, rfl, rfl⟩
  show some (csvFileRows cfg (runLoop cfg (initState pbs) records)) = _
  rw [csvFileRows, runLoop_csv_rows]
  simp [initState]

/-! ### C6: the absent parent sub-object -/

/-- C6: a record whose `Pricebook2` sub-object is absent but whose flat
`Pricebook2Id` is present (truthy) resolves its parent identity from the
flat field, and the finalized document holds exactly one catalog with that
identity, containing that record's entry; if the identity was neither
preloaded nor carried by any record with a parent sub-object, that catalog
has every optional attribute null. The condition is handled by the normal
path of the pass, not as an error. -/
theorem c6_absent_parent_subobject (cfg : Config) (pbs : List PBRecord)
    (records : List SRecord) (r : SRecord) (hmem : r ∈ records)
    (hrel : r.Pricebook2 = none) (_htr : truthy r.Pricebook2Id = true) :
    pb_id_of r = r.Pricebook2Id
    ∧ (∃ c, c ∈ (runMain cfg pbs records).1.pricebooks
        ∧ c.Id = r.Pricebook2Id ∧ mkEntry cfg r ∈ c.Entries
        ∧ ∀ c', c' ∈ (runMain cfg pbs records).1.pricebooks →
            c'.Id = r.Pricebook2Id → c' = c)
    ∧ ((∀ pb ∈ pbs, ¬pb.Id = r.Pricebook2Id) →
        (∀ r' ∈ records, pb_id_of r' = r.Pricebook2Id → r'.Pricebook2 = none) →
        ∀ c ∈ (runMain cfg pbs records).1.pricebooks,
          c.Id = r.Pricebook2Id → attrsNull c) := by
  have hpb : pb_id_of r = r.Pricebook2Id := by
    simp [pb_id_of, safe_relPB, hrel, pyOr, truthy]
  refine ⟨hpb, ?_, ?_⟩
  · have hpair : (pb_id_of r, mkEntry cfg r)
        ∈ records.map (fun q => (pb_id_of q, mkEntry cfg q)) :=
      List.mem_map_of_mem _ hmem
    have hdp := (runMain_docPairs_perm cfg pbs records).mem_iff.mpr hpair
    obtain ⟨c, hc, hcp⟩ := List.mem_flatMap.mp hdp
    obtain ⟨e, he, heq⟩ := List.mem_map.mp hcp
    obtain ⟨h1, h2⟩ := Prod.mk.injEq .. |>.mp heq
    refine ⟨c, hc, by rw [h1, hpb], h2 ▸ he, ?_⟩
    intro c' hc' hcid
    have hnd := runMain_ids_nodup cfg pbs records
    refine List.inj_on_of_nodup_map hnd hc' hc ?_
    rw [hcid, h1, hpb]
  · intro hpbs hrec c hc hcid
    have hinit : attrsNullAt (initState pbs).pricebooks_map r.Pricebook2Id := by
      intro c0 hc0
      have hnone : mapLookup (preload pbs) r.Pricebook2Id = none := by
        rw [mapLookup_eq_none_iff, mem_mapKeys_preload]
        intro hin
        obtain ⟨pb, hpbm, hpbe⟩ := List.mem_map.mp hin
        exact hpbs pb hpbm hpbe
      rw [show (initState pbs).pricebooks_map = preload pbs from rfl, hnone] at hc0
      cases hc0
    have hfin : attrsNullAt (mainMap cfg pbs records) r.Pricebook2Id :=
      runLoop_attrsNullAt hrec hinit
    have hc2 : c ∈ (mainMap cfg pbs records).map Prod.snd :=
      (runMain_pricebooks_perm cfg pbs records).mem_iff.mp hc
    obtain ⟨p, hp, hpc⟩ := List.mem_map.mp hc2
    have hl : mapLookup (mainMap cfg pbs records) p.1 = some p.2 :=
      mapLookup_of_mem_WF (mainMap_WF cfg pbs records) hp
    have hkey : p.1 = r.Pricebook2Id := by
      rw [← (mainMap_WF cfg pbs records).2 p hp, hpc, hcid]
    rw [hkey] at hl
    have := hfin p.2 hl
    rw [hpc] at this
    exact this

/-! ### C9: the finalizer's sort order -/

/-- C9: the finalized catalog array is pairwise ordered by the two-part key
(standard catalogs first, then case-insensitive name, a missing name
sorting as the empty string), each catalog's nested entry array is exactly
its records in original stream order, and the spec's three-catalog example
finalizes as Base, alpha, Zeta. -/
theorem c9_finalize_sort (cfg : Config) (pbs : List PBRecord)
    (records : List SRecord) :
    (runMain cfg pbs records).1.pricebooks.Pairwise (fun a b => pbLe a b = true)
    ∧ (∀ c ∈ (runMain cfg pbs records).1.pricebooks,
        c.Entries = (records.filter (fun r => pb_id_of r == c.Id)).map (mkEntry cfg))
    ∧ ((runMain ⟨false, [], [], true⟩ [zetaPB, alphaPB, basePB] []).1.pricebooks.map
        Catalog.Name) = [Val.vstr "Base", Val.vstr "alpha", Val.vstr "Zeta"] := by
  refine ⟨?_, runMain_entries_char cfg pbs records, by decide⟩
  have h := sortPricebooks_pairwise (mainMap cfg pbs records)
  rw [runMain_fst, buildDocument_pricebooks]
  refine h.imp ?_
  intro a b hab
  unfold pbLt at hab
  unfold pbLe
  rw [hab]
  rfl

/-- Witness for C9: the example document contains the Base catalog, and its
entry list is the (empty) stream filtered to its identity. -/
theorem c9_finalize_sort_witness :
    preloadCatalog basePB
        ∈ (runMain ⟨false, [], [], true⟩ [zetaPB, alphaPB, basePB] []).1.pricebooks
    ∧ (preloadCatalog basePB).Entries
        = (([] : List SRecord).filter
            (fun r => pb_id_of r == (preloadCatalog basePB).Id)).map
            (mkEntry ⟨false, [], [], true⟩) :=
  ⟨by decide,
   (c9_finalize_sort ⟨false, [], [], true⟩ [zetaPB, alphaPB, basePB] []).2.1
     (preloadCatalog basePB) (by decide)⟩

/-! ### C10: the single-catalog restriction -/

/-- C10: a configured restriction identifier filters only the entry query
(appended as a WHERE clause to the joined query; the catalog listing query
has no filter), so the document still contains a catalog for every row of
the unfiltered listing, catalogs outside the restriction carry empty entry
lists, and `pricebook_count` counts every catalog in the document. -/
theorem c10_restriction_scope (cfg : Config) (pbs : List PBRecord)
    (records : List SRecord) :
    (∀ (inc : Bool) (pcf p2cf : List String) (pid : String),
        build_flat_pbe_soql inc pcf p2cf (some pid)
          = build_flat_pbe_soql inc pcf p2cf none
            ++ " WHERE Pricebook2Id = '" ++ pid ++ "'")
    ∧ build_all_pricebooks_soql
        = "SELECT Id, Name, IsActive, IsStandard, Description, CreatedDate, LastModifiedDate FROM Pricebook2"
    ∧ (∀ pb ∈ pbs, ∃ c ∈ (runMain cfg pbs records).1.pricebooks, c.Id = pb.Id)
    ∧ (runMain cfg pbs records).1.pricebook_count
        = (runMain cfg pbs records).1.pricebooks.length
    ∧ (∀ pid : Val, (∀ r ∈ records, pb_id_of r = pid) →
        ∀ c ∈ (runMain cfg pbs records).1.pricebooks,
          ¬c.Id = pid → c.Entries = []) := by
  refine ⟨fun inc pcf p2cf pid => rfl, by decide, ?_, rfl, ?_⟩
  · intro pb hpbm
    have hk : pb.Id ∈ mapKeys (preload pbs) :=
      (mem_mapKeys_preload pbs pb.Id).mpr (List.mem_map_of_mem PBRecord.Id hpbm)
    have hs : (mapLookup (preload pbs) pb.Id).isSome := by
      cases hl : mapLookup (preload pbs) pb.Id with
      | none => exact absurd (mapLookup_eq_none_iff.mp hl) (by simp [hk])
      | some c => rfl
    exact runMain_mem_of_key (runLoop_lookup_mono hs)
  · intro pid hall c hc hne
    rw [runMain_entries_char cfg pbs records c hc]
    rw [List.filter_eq_nil_iff.mpr ?_]
    · rfl
    · intro a ha
      simp only [beq_iff_eq]
      intro he
      exact hne (by rw [← he, hall a ha])


/-- Witness for C6: the fallback resolution at a concrete record whose
parent sub-object is absent. -/
theorem c6_absent_parent_subobject_witness :
    r6 ∈ [r6] ∧ r6.Pricebook2 = none ∧ truthy r6.Pricebook2Id = true
    ∧ pb_id_of r6 = r6.Pricebook2Id :=
  ⟨by decide, rfl, by decide,
   (c6_absent_parent_subobject ⟨false, [], [], true⟩ [zetaPB] [r6] r6 (by decide) rfl
     (by decide)).1⟩

/-- Witness for C10: the WHERE clause at a concrete restriction identifier,
and a preloaded catalog present in a concrete document. -/
theorem c10_restriction_scope_witness :
    build_flat_pbe_soql false [] [] (some "01s000000000001")
      = build_flat_pbe_soql false [] [] none
        ++ " WHERE Pricebook2Id = '" ++ "01s000000000001" ++ "'"
    ∧ zetaPB ∈ [zetaPB]
    ∧ (∃ c ∈ (runMain ⟨false, [], [], true⟩ [zetaPB] []).1.pricebooks,
        c.Id = zetaPB.Id) :=
  ⟨(c10_restriction_scope ⟨false, [], [], true⟩ [zetaPB] []).1 false [] []
      "01s000000000001",
   by decide,
   (c10_restriction_scope ⟨false, [], [], true⟩ [zetaPB] []).2.2.1 zetaPB (by decide)⟩

/-! ### C7: the conditional currency column -/

theorem entry_prefix_ne_currency {f : String}
    (hsuf : endsWithL f.data "__c".data = true) :
    ¬("Entry." ++ f = "Entry.CurrencyIsoCode") := by
  intro h
  have hd : ("Entry." ++ f).data = "Entry.CurrencyIsoCode".data := by rw [h]
  rw [String.data_append] at hd
  have h2 : "Entry.CurrencyIsoCode".data = "Entry.".data ++ "CurrencyIsoCode".data := by
    decide
  rw [h2] at hd
  have h3 := List.append_cancel_left hd
  have h4 : f = "CurrencyIsoCode" :=
    String.ext (h3.trans (by decide))
  rw [h4] at hsuf
  exact absurd hsuf (by decide)

theorem product_prefix_ne_currency (f : String) :
    ¬("Product." ++ f = "Entry.CurrencyIsoCode") := by
  intro h
  have hd : ("Product." ++ f).data = "Entry.CurrencyIsoCode".data := by rw [h]
  rw [String.data_append] at hd
  simp at hd

theorem mkRow_keys (cfg : Config) (pb_id pb_name : Val) (e : Entry) :
    (mkRow cfg pb_id pb_name e).map Prod.fst
      = ["Pricebook.Id", "Pricebook.Name", "Entry.Id", "Entry.Pricebook2Id",
         "Entry.Product2Id", "Entry.UnitPrice", "Entry.IsActive",
         "Entry.UseStandardPrice", "Entry.CreatedDate", "Entry.LastModifiedDate",
         "Product.Id", "Product.Name", "Product.ProductCode", "Product.Family",
         "Product.IsActive", "Product.Description"]
        ++ (if cfg.include_currency then ["Entry.CurrencyIsoCode"] else [])
        ++ cfg.pbe_custom_fields.map (fun f => "Entry." ++ f)
        ++ (if cfg.include_product2_custom then
              cfg.product2_custom_fields.map (fun f => "Product." ++ f)
            else []) := by
  unfold mkRow
  by_cases h1 : cfg.include_currency <;> by_cases h2 : cfg.include_product2_custom <;>
    simp [h1, h2, List.map_map, Function.comp_def]

theorem runMain_entry_shape (cfg : Config) (pbs : List PBRecord)
    (records : List SRecord) :
    ∀ c ∈ (runMain cfg pbs records).1.pricebooks, ∀ e ∈ c.Entries,
      ∃ r ∈ records, e = mkEntry cfg r := by
  intro c hc e he
  have hpair : (c.Id, e) ∈ docPairs (runMain cfg pbs records).1.pricebooks :=
    List.mem_flatMap.mpr ⟨c, hc, List.mem_map_of_mem _ he⟩
  have hm := (runMain_docPairs_perm cfg pbs records).mem_iff.mp hpair
  obtain ⟨r, hr, heq⟩ := List.mem_map.mp hm
  exact ⟨r, hr, ((Prod.mk.injEq .. |>.mp heq).2).symm⟩

/-- C7: if the capability probe reported no currency support, the currency
column appears nowhere — not in the flat header, not among any row's keys,
not as a key of any nested entry — and the document flag is false; if it
reported support, the header is the core columns with the currency column
inserted after `Entry.IsActive`, followed by the discovered custom columns
in discovery order, every emitted row carries the currency key, and every
nested entry carries the currency attribute (possibly null). -/
theorem c7_currency_conditional (cfg : Config) (pbs : List PBRecord)
    (records : List SRecord)
    (hpbe : ∀ f ∈ cfg.pbe_custom_fields, endsWithL f.data "__c".data = true) :
    (cfg.include_currency = false →
      "Entry.CurrencyIsoCode" ∉ header_cols cfg
      ∧ (∀ row ∈ (runMain cfg pbs records).2.csv_rows,
          "Entry.CurrencyIsoCode" ∉ row.map Prod.fst)
      ∧ (∀ c ∈ (runMain cfg pbs records).1.pricebooks, ∀ e ∈ c.Entries,
          e.CurrencyIsoCode = none)
      ∧ (runMain cfg pbs records).1.multi_currency = false)
    ∧ (cfg.include_currency = true →
      header_cols cfg
        = ["Pricebook.Id", "Pricebook.Name", "Entry.Id", "Entry.Pricebook2Id",
           "Entry.Product2Id", "Entry.UnitPrice", "Entry.IsActive",
           "Entry.CurrencyIsoCode", "Entry.UseStandardPrice", "Entry.CreatedDate",
           "Entry.LastModifiedDate", "Product.Id", "Product.Name",
           "Product.ProductCode", "Product.Family", "Product.IsActive",
           "Product.Description"]
          ++ cfg.pbe_custom_fields.map (fun f => "Entry." ++ f)
          ++ (if cfg.include_product2_custom then
                cfg.product2_custom_fields.map (fun f => "Product." ++ f)
              else [])
      ∧ (∀ row ∈ (runMain cfg pbs records).2.csv_rows,
          "Entry.CurrencyIsoCode" ∈ row.map Prod.fst)
      ∧ (∀ c ∈ (runMain cfg pbs records).1.pricebooks, ∀ e ∈ c.Entries,
          (e.CurrencyIsoCode).isSome = true)
      ∧ (runMain cfg pbs records).1.multi_currency = true) := by
  constructor
  · intro hfalse
    refine ⟨?_, ?_, ?_, ?_⟩
    · rw [header_cols, hfalse]
      intro hmem
      rcases List.mem_append.mp hmem with hm | hm
      · rcases List.mem_append.mp hm with hm2 | hm2
        · rw [show base_cols false
              = ["Pricebook.Id", "Pricebook.Name", "Entry.Id", "Entry.Pricebook2Id",
                 "Entry.Product2Id", "Entry.UnitPrice", "Entry.IsActive",
                 "Entry.UseStandardPrice", "Entry.CreatedDate", "Entry.LastModifiedDate",
                 "Product.Id", "Product.Name", "Product.ProductCode", "Product.Family",
                 "Product.IsActive", "Product.Description"] from rfl] at hm2
          exact absurd hm2 (by decide)
        · obtain ⟨f, hf, hfe⟩ := List.mem_map.mp hm2
          exact entry_prefix_ne_currency (hpbe f hf) hfe
      · rcases hp : cfg.include_product2_custom with _ | _
        · rw [hp] at hm
          simp at hm
        · rw [hp] at hm
          simp only [if_true] at hm
          obtain ⟨f, hf, hfe⟩ := List.mem_map.mp hm
          exact product_prefix_ne_currency f hfe
    · intro row hrow
      rw [runMain_snd, runLoop_csv_rows] at hrow
      simp only [initState, List.nil_append, List.mem_map] at hrow
      obtain ⟨r, hr, hre⟩ := hrow
      rw [← hre, rowOf, mkRow_keys, hfalse]
      intro hmem
      rcases List.mem_append.mp hmem with hm | hm
      · rcases List.mem_append.mp hm with hm2 | hm2
        · rcases List.mem_append.mp hm2 with hm3 | hm3
          · exact absurd hm3 (by decide)
          · simp at hm3
        · obtain ⟨f, hf, hfe⟩ := List.mem_map.mp hm2
          exact entry_prefix_ne_currency (hpbe f hf) hfe
      · rcases hp : cfg.include_product2_custom with _ | _
        · rw [hp] at hm
          simp at hm
        · rw [hp] at hm
          simp only [if_true] at hm
          obtain ⟨f, hf, hfe⟩ := List.mem_map.mp hm
          exact product_prefix_ne_currency f hfe
    · intro c hc e he
      obtain ⟨r, _, hre⟩ := runMain_entry_shape cfg pbs records c hc e he
      rw [hre]
      simp [mkEntry, hfalse]
    · rw [runMain_fst]
      simpa [buildDocument] using hfalse
  · intro htrue
    refine ⟨?_, ?_, ?_, ?_⟩
    · rw [header_cols, htrue]
      rw [show base_cols true
          = ["Pricebook.Id", "Pricebook.Name", "Entry.Id", "Entry.Pricebook2Id",
             "Entry.Product2Id", "Entry.UnitPrice", "Entry.IsActive",
             "Entry.CurrencyIsoCode", "Entry.UseStandardPrice", "Entry.CreatedDate",
             "Entry.LastModifiedDate", "Product.Id", "Product.Name",
             "Product.ProductCode", "Product.Family", "Product.IsActive",
             "Product.Description"] from rfl]
    · intro row hrow
      rw [runMain_snd, runLoop_csv_rows] at hrow
      simp only [initState, List.nil_append, List.mem_map] at hrow
      obtain ⟨r, hr, hre⟩ := hrow
      rw [← hre, rowOf, mkRow_keys, htrue]
      simp
    · intro c hc e he
      obtain ⟨r, _, hre⟩ := runMain_entry_shape cfg pbs records c hc e he
      rw [hre]
      simp [mkEntry, htrue]
    · rw [runMain_fst]
      simpa [buildDocument] using htrue

/-- Witness for C7: at a concrete configuration without currency support and
one discovered custom field, the currency column is absent from the
header. -/
theorem c7_currency_conditional_witness :
    (∀ f ∈ (["Foo__c"] : List String), endsWithL f.data "__c".data = true)
    ∧ "Entry.CurrencyIsoCode" ∉ header_cols ⟨false, ["Foo__c"], [], false⟩ :=
  ⟨by decide,
   ((c7_currency_conditional ⟨false, ["Foo__c"], [], false⟩ [] [] (by decide)).1 rfl).1⟩

/-! ### C3: single steps of the default-dialect reader -/

theorem step_inQuoted_quote (d : Char) (field : List Char) (row : List (List Char))
    (rest : List Char) :
    csvParseAux d .inQuoted field row ('"' :: rest)
      = csvParseAux d .quoteInQuoted field row rest := by
  simp [csvParseAux]

theorem step_inQuoted_data {c : Char} (h : ¬c = '"') (d : Char) (field : List Char)
    (row : List (List Char)) (rest : List Char) :
    csvParseAux d .inQuoted field row (c :: rest)
      = csvParseAux d .inQuoted (field ++ [c]) row rest := by
  simp [csvParseAux, h]

theorem step_qq_quote (d : Char) (field : List Char) (row : List (List Char))
    (rest : List Char) :
    csvParseAux d .quoteInQuoted field row ('"' :: rest)
      = csvParseAux d .inQuoted (field ++ ['"']) row rest := by
  simp [csvParseAux]

theorem step_qq_delim {d : Char} (hq : ¬d = '"') (field : List Char)
    (row : List (List Char)) (rest : List Char) :
    csvParseAux d .quoteInQuoted field row (d :: rest)
      = csvParseAux d .startField [] (row ++ [field]) rest := by
  simp [csvParseAux, hq]

theorem step_qq_newline {d : Char} (hn : ¬('\n' : Char) = d) (field : List Char)
    (row : List (List Char)) (rest : List Char) :
    csvParseAux d .quoteInQuoted field row ('\n' :: rest)
      = (row ++ [field]) :: csvParseAux d .startRecord [] [] rest := by
  simp [csvParseAux, hn]

theorem step_startField_newline (d : Char) (row : List (List Char)) (rest : List Char) :
    csvParseAux d .startField [] row ('\n' :: rest)
      = (row ++ [[]]) :: csvParseAux d .startRecord [] [] rest := by
  simp [csvParseAux]

theorem step_startField_quote (d : Char) (row : List (List Char)) (rest : List Char) :
    csvParseAux d .startField [] row ('"' :: rest)
      = csvParseAux d .inQuoted [] row rest := by
  simp [csvParseAux]

theorem step_startField_delim {d : Char} (hn : ¬d = '\n') (hr : ¬d = '\r')
    (hq : ¬d = '"') (row : List (List Char)) (rest : List Char) :
    csvParseAux d .startField [] row (d :: rest)
      = csvParseAux d .startField [] (row ++ [[]]) rest := by
  simp [csvParseAux, hn, hr, hq]

theorem step_startField_data {c d : Char} (hn : ¬c = '\n') (hr : ¬c = '\r')
    (hq : ¬c = '"') (hd : ¬c = d) (row : List (List Char)) (rest : List Char) :
    csvParseAux d .startField [] row (c :: rest)
      = csvParseAux d .inField [c] row rest := by
  simp [csvParseAux, hn, hr, hq, hd]

theorem step_inField_newline (d : Char) (field : List Char) (row : List (List Char))
    (rest : List Char) :
    csvParseAux d .inField field row ('\n' :: rest)
      = (row ++ [field]) :: csvParseAux d .startRecord [] [] rest := by
  simp [csvParseAux]

theorem step_inField_delim {d : Char} (hn : ¬d = '\n') (hr : ¬d = '\r')
    (field : List Char) (row : List (List Char)) (rest : List Char) :
    csvParseAux d .inField field row (d :: rest)
      = csvParseAux d .startField [] (row ++ [field]) rest := by
  simp [csvParseAux, hn, hr]

theorem step_inField_data {c d : Char} (hn : ¬c = '\n') (hr : ¬c = '\r')
    (hd : ¬c = d) (field : List Char) (row : List (List Char)) (rest : List Char) :
    csvParseAux d .inField field row (c :: rest)
      = csvParseAux d .inField (field ++ [c]) row rest := by
  simp [csvParseAux, hn, hr, hd]

theorem step_startRecord_newline (d : Char) (rest : List Char) :
    csvParseAux d .startRecord [] [] ('\n' :: rest)
      = [] :: csvParseAux d .startRecord [] [] rest := by
  simp [csvParseAux]

theorem step_startRecord_eq_startField {c : Char} (hn : ¬c = '\n') (hr : ¬c = '\r')
    (d : Char) (rest : List Char) :
    csvParseAux d .startRecord [] [] (c :: rest)
      = csvParseAux d .startField [] [] (c :: rest) := by
  by_cases hq : c = '"'
  · subst hq
    simp [csvParseAux]
  · by_cases hd : c = d
    · subst hd
      simp [csvParseAux, hn, hr, hq]
    · simp [csvParseAux, hn, hr, hq, hd]

/-! ### C3: consuming a written cell -/

theorem parse_escQA_body (d : Char) (s field : List Char) (row : List (List Char))
    (tail : List Char) :
    csvParseAux d .inQuoted field row (s.flatMap escQA ++ tail)
      = csvParseAux d .inQuoted (field ++ escBS s) row tail := by
  induction s generalizing field with
  | nil => simp [escBS]
  | cons c cs ih =>
    by_cases hq : c = '"'
    · subst hq
      rw [show (('"' :: cs).flatMap escQA) ++ tail
          = '"' :: '"' :: (cs.flatMap escQA ++ tail) by simp [escQA]]
      rw [step_inQuoted_quote, step_qq_quote, ih]
      simp [escBS, escQA]
    · by_cases hb : c = '\\'
      · subst hb
        rw [show (('\\' :: cs).flatMap escQA) ++ tail
            = '\\' :: '\\' :: (cs.flatMap escQA ++ tail) by simp [escQA]]
        rw [step_inQuoted_data (by decide), step_inQuoted_data (by decide), ih]
        simp [escBS]
      · rw [show ((c :: cs).flatMap escQA) ++ tail
            = c :: (cs.flatMap escQA ++ tail) by simp [escQA, hq, hb]]
        rw [step_inQuoted_data hq, ih]
        simp [escBS, hb]

theorem parse_escQ_body (d : Char) (s field : List Char) (row : List (List Char))
    (tail : List Char) :
    csvParseAux d .inQuoted field row (s.flatMap escQ ++ tail)
      = csvParseAux d .inQuoted (field ++ s) row tail := by
  induction s generalizing field with
  | nil => simp
  | cons c cs ih =>
    by_cases hq : c = '"'
    · subst hq
      rw [show (('"' :: cs).flatMap escQ) ++ tail
          = '"' :: '"' :: (cs.flatMap escQ ++ tail) by simp [escQ]]
      rw [step_inQuoted_quote, step_qq_quote, ih]
      simp
    · rw [show ((c :: cs).flatMap escQ) ++ tail
          = c :: (cs.flatMap escQ ++ tail) by simp [escQ, hq]]
      rw [step_inQuoted_data hq, ih]
      simp

theorem parse_inField_run {d : Char} {s : List Char}
    (h : ∀ c ∈ s, ¬c = d ∧ ¬c = '\n' ∧ ¬c = '\r') (field : List Char)
    (row : List (List Char)) (tail : List Char) :
    csvParseAux d .inField field row (s ++ tail)
      = csvParseAux d .inField (field ++ s) row tail := by
  induction s generalizing field with
  | nil => simp
  | cons c cs ih =>
    obtain ⟨hd, hn, hr⟩ := h c (List.mem_cons_self _ _)
    rw [List.cons_append, step_inField_data hn hr hd, ih (fun q hq => h q (List.mem_cons_of_mem _ hq))]
    simp

theorem parse_quoteAllField (d : Char) (s : List Char) (row : List (List Char))
    (tail : List Char) :
    csvParseAux d .startField [] row (quoteAllField s ++ tail)
      = csvParseAux d .quoteInQuoted (escBS s) row tail := by
  rw [show quoteAllField s ++ tail = '"' :: (s.flatMap escQA ++ ('"' :: tail)) by
    simp [quoteAllField]]
  rw [step_startField_quote, parse_escQA_body, step_inQuoted_quote]
  simp

/-- The two ways a `QUOTE_ALL` cell can be followed: by a delimiter (more
cells) or by the line terminator (end of record). -/
theorem parse_qaCell {d : Char} (hq : ¬d = '"') (hn : ¬d = '\n')
    (c : List Char) (row : List (List Char)) (tail : List Char) :
    (csvParseAux d .startField [] row (quoteAllField c ++ (d :: tail))
       = csvParseAux d .startField [] (row ++ [escBS c]) tail)
    ∧ (csvParseAux d .startField [] row (quoteAllField c ++ ('\n' :: tail))
       = (row ++ [escBS c]) :: csvParseAux d .startRecord [] [] tail) := by
  constructor
  · rw [parse_quoteAllField, step_qq_delim hq]
  · rw [parse_quoteAllField, step_qq_newline (fun hh => hn hh.symm)]

/-- The two ways a `QUOTE_MINIMAL` cell can be followed. -/
theorem parse_minCell {d : Char} (hq : ¬d = '"') (hn : ¬d = '\n') (hr : ¬d = '\r')
    {c : List Char} (hcr : ¬ '\r' ∈ c) (row : List (List Char)) (tail : List Char) :
    (csvParseAux d .startField [] row (minimalField d c ++ (d :: tail))
       = csvParseAux d .startField [] (row ++ [c]) tail)
    ∧ (csvParseAux d .startField [] row (minimalField d c ++ ('\n' :: tail))
       = (row ++ [c]) :: csvParseAux d .startRecord [] [] tail) := by
  by_cases hnq : needsQuote d c = true
  · rw [show minimalField d c = '"' :: (c.flatMap escQ) ++ ['"'] by
      simp [minimalField, hnq]]
    constructor
    · rw [show ('"' :: (c.flatMap escQ) ++ ['"']) ++ (d :: tail)
          = '"' :: (c.flatMap escQ ++ ('"' :: (d :: tail))) by simp]
      rw [step_startField_quote, parse_escQ_body, step_inQuoted_quote]
      simp only [List.nil_append]
      rw [step_qq_delim hq]
    · rw [show ('"' :: (c.flatMap escQ) ++ ['"']) ++ ('\n' :: tail)
          = '"' :: (c.flatMap escQ ++ ('"' :: ('\n' :: tail))) by simp]
      rw [step_startField_quote, parse_escQ_body, step_inQuoted_quote]
      simp only [List.nil_append]
      rw [step_qq_newline (fun hh => hn hh.symm)]
  · have hall : ∀ x ∈ c, ¬x = d ∧ ¬x = '"' ∧ ¬x = '\n' ∧ ¬x = '\r' := by
      intro x hx
      have hnq2 : needsQuote d c = false := by
        cases hh : needsQuote d c
        · rfl
        · exact absurd hh hnq
      unfold needsQuote at hnq2
      rw [List.any_eq_false] at hnq2
      have h2 := hnq2 x hx
      simp only [Bool.or_eq_true, decide_eq_true_eq, not_or] at h2
      have hxr : ¬x = '\r' := by
        intro hh
        refine hcr ?_
        rw [← hh]
        exact hx
      exact ⟨h2.1.1, h2.1.2, h2.2, hxr⟩
    rw [show minimalField d c = c by simp [minimalField, hnq]]
    cases c with
    | nil =>
      constructor
      · rw [List.nil_append, step_startField_delim hn hr hq]
      · rw [List.nil_append, step_startField_newline]
    | cons x xs =>
      obtain ⟨hxd, hxq, hxn, hxr⟩ := hall x (List.mem_cons_self _ _)
      have hxs : ∀ q ∈ xs, ¬q = d ∧ ¬q = '\n' ∧ ¬q = '\r' := by
        intro q hqm
        obtain ⟨a, b2, c2, d2⟩ := hall q (List.mem_cons_of_mem _ hqm)
        exact ⟨a, c2, d2⟩
      constructor
      · rw [show (x :: xs) ++ (d :: tail) = x :: (xs ++ (d :: tail)) by simp]
        rw [step_startField_data hxn hxr hxq hxd, parse_inField_run hxs,
          step_inField_delim hn hr]
        simp
      · rw [show (x :: xs) ++ ('\n' :: tail) = x :: (xs ++ ('\n' :: tail)) by simp]
        rw [step_startField_data hxn hxr hxq hxd, parse_inField_run hxs,
          step_inField_newline]
        simp

/-! ### C3: consuming a written row, and a whole written file -/

theorem parse_qaRow (cells : List (List Char)) (hne : ¬cells = [])
    (row : List (List Char)) (tail : List Char) :
    csvParseAux ',' .startField [] row
        (joinCells ',' (cells.map quoteAllField) ++ ('\n' :: tail))
      = (row ++ cells.map escBS) :: csvParseAux ',' .startRecord [] [] tail := by
  induction cells generalizing row with
  | nil => exact absurd rfl hne
  | cons c cs ih =>
    cases cs with
    | nil =>
      rw [show joinCells ',' ([c].map quoteAllField) = quoteAllField c from rfl]
      rw [(parse_qaCell (by decide) (by decide) c row tail).2]
      simp
    | cons c2 cs2 =>
      rw [show joinCells ',' ((c :: c2 :: cs2).map quoteAllField)
          = quoteAllField c ++ ',' :: joinCells ',' ((c2 :: cs2).map quoteAllField)
          from rfl]
      rw [show (quoteAllField c
            ++ ',' :: joinCells ',' ((c2 :: cs2).map quoteAllField)) ++ ('\n' :: tail)
          = quoteAllField c
            ++ (',' :: (joinCells ',' ((c2 :: cs2).map quoteAllField) ++ ('\n' :: tail)))
          by simp]
      rw [(parse_qaCell (by decide) (by decide) c row _).1]
      rw [ih (by simp) (row ++ [escBS c])]
      simp

theorem joinCells_qa_head (c : List Char) (cs : List (List Char)) :
    ∃ r2, joinCells ',' ((c :: cs).map quoteAllField) = '"' :: r2 := by
  cases cs with
  | nil => exact ⟨c.flatMap escQA ++ ['"'], rfl⟩
  | cons c2 cs2 =>
    refine ⟨(c.flatMap escQA ++ ['"'])
      ++ ',' :: joinCells ',' ((c2 :: cs2).map quoteAllField), ?_⟩
    rw [show joinCells ',' ((c :: c2 :: cs2).map quoteAllField)
        = quoteAllField c ++ ',' :: joinCells ',' ((c2 :: cs2).map quoteAllField)
        from rfl]
    simp [quoteAllField]

theorem parse_qaRows_aux (rows : List (List (List Char))) (tail : List Char) :
    csvParseAux ',' .startRecord [] [] (writeCsvQuoteAll rows ++ tail)
      = rows.map (fun row => row.map escBS) ++ csvParseAux ',' .startRecord [] [] tail := by
  induction rows with
  | nil => simp [writeCsvQuoteAll]
  | cons row rest ih =>
    rw [show writeCsvQuoteAll (row :: rest)
        = writeRowQuoteAll row ++ writeCsvQuoteAll rest from rfl]
    cases row with
    | nil =>
      rw [show writeRowQuoteAll [] = ['\n'] from rfl]
      rw [show (['\n'] ++ writeCsvQuoteAll rest) ++ tail
          = '\n' :: (writeCsvQuoteAll rest ++ tail) by simp]
      rw [step_startRecord_newline, ih]
      simp
    | cons c cs =>
      rw [show writeRowQuoteAll (c :: cs)
          = joinCells ',' ((c :: cs).map quoteAllField) ++ ['\n'] from rfl]
      rw [show ((joinCells ',' ((c :: cs).map quoteAllField) ++ ['\n'])
            ++ writeCsvQuoteAll rest) ++ tail
          = joinCells ',' ((c :: cs).map quoteAllField)
            ++ ('\n' :: (writeCsvQuoteAll rest ++ tail)) by simp]
      obtain ⟨r2, hr2⟩ := joinCells_qa_head c cs
      rw [show joinCells ',' ((c :: cs).map quoteAllField)
            ++ ('\n' :: (writeCsvQuoteAll rest ++ tail))
          = '"' :: (r2 ++ ('\n' :: (writeCsvQuoteAll rest ++ tail))) by rw [hr2]; simp]
      rw [step_startRecord_eq_startField (by decide) (by decide)]
      rw [show ('"' :: (r2 ++ ('\n' :: (writeCsvQuoteAll rest ++ tail))))
          = joinCells ',' ((c :: cs).map quoteAllField)
            ++ ('\n' :: (writeCsvQuoteAll rest ++ tail)) by rw [hr2]; simp]
      rw [parse_qaRow (c :: cs) (by simp) []]
      rw [ih]
      simp

theorem csvParse_writeCsvQuoteAll (rows : List (List (List Char))) :
    csvParse ',' (writeCsvQuoteAll rows) = rows.map (fun row => row.map escBS) := by
  have h := parse_qaRows_aux rows []
  rw [List.append_nil] at h
  unfold csvParse
  rw [h]
  simp [csvParseAux, csvFlush]

theorem parse_minRow (cells : List (List Char)) (hne : ¬cells = [])
    (hcr : ∀ cell ∈ cells, ¬ '\r' ∈ cell)
    (row : List (List Char)) (tail : List Char) :
    csvParseAux '\t' .startField [] row
        (joinCells '\t' (cells.map (minimalField '\t')) ++ ('\n' :: tail))
      = (row ++ cells) :: csvParseAux '\t' .startRecord [] [] tail := by
  induction cells generalizing row with
  | nil => exact absurd rfl hne
  | cons c cs ih =>
    have hcrc : ¬ '\r' ∈ c := hcr c (List.mem_cons_self _ _)
    have hcrs : ∀ cell ∈ cs, ¬ '\r' ∈ cell :=
      fun q hq => hcr q (List.mem_cons_of_mem _ hq)
    cases cs with
    | nil =>
      rw [show joinCells '\t' ([c].map (minimalField '\t')) = minimalField '\t' c
          from rfl]
      rw [(parse_minCell (by decide) (by decide) (by decide) hcrc row tail).2]
    | cons c2 cs2 =>
      rw [show joinCells '\t' ((c :: c2 :: cs2).map (minimalField '\t'))
          = minimalField '\t' c
            ++ '\t' :: joinCells '\t' ((c2 :: cs2).map (minimalField '\t'))
          from rfl]
      rw [show (minimalField '\t' c
            ++ '\t' :: joinCells '\t' ((c2 :: cs2).map (minimalField '\t')))
            ++ ('\n' :: tail)
          = minimalField '\t' c
            ++ ('\t' :: (joinCells '\t' ((c2 :: cs2).map (minimalField '\t'))
              ++ ('\n' :: tail))) by simp]
      rw [(parse_minCell (by decide) (by decide) (by decide) hcrc row _).1]
      rw [ih (by simp) hcrs (row ++ [c])]
      simp

theorem minimalField_eq_nil {d : Char} {c : List Char}
    (h : minimalField d c = []) : c = [] := by
  unfold minimalField at h
  by_cases hnq : needsQuote d c = true
  · rw [if_pos hnq] at h
    exact absurd h (by simp)
  · rw [if_neg hnq] at h
    exact h

theorem minimalField_head_not_newline {d : Char} {c : List Char} {x : Char}
    {r3 : List Char} (hcr : ¬ '\r' ∈ c) (h : minimalField d c = x :: r3) :
    ¬x = '\n' ∧ ¬x = '\r' := by
  unfold minimalField at h
  by_cases hnq : needsQuote d c = true
  · rw [if_pos hnq] at h
    have hx : x = '"' := List.head_eq_of_cons_eq h.symm
    subst hx
    exact ⟨by decide, by decide⟩
  · rw [if_neg hnq] at h
    subst h
    have hnq2 : needsQuote d (x :: r3) = false := by
      cases hh : needsQuote d (x :: r3)
      · rfl
      · exact absurd hh hnq
    unfold needsQuote at hnq2
    rw [List.any_eq_false] at hnq2
    have h2 := hnq2 x (List.mem_cons_self _ _)
    simp only [Bool.or_eq_true, decide_eq_true_eq, not_or] at h2
    have hxr : ¬x = '\r' := by
      intro hh
      refine hcr ?_
      rw [← hh]
      exact List.mem_cons_self _ _
    exact ⟨h2.2, hxr⟩

theorem parse_minRows_aux (rows : List (List (List Char)))
    (h : ∀ row ∈ rows, ¬row = [[]])
    (hcr : ∀ row ∈ rows, ∀ cell ∈ row, ¬ '\r' ∈ cell) (tail : List Char) :
    csvParseAux '\t' .startRecord [] [] (writeCsvMinimal '\t' rows ++ tail)
      = rows ++ csvParseAux '\t' .startRecord [] [] tail := by
  induction rows with
  | nil => simp [writeCsvMinimal]
  | cons row rest ih =>
    have hrest := ih (fun q hq => h q (List.mem_cons_of_mem _ hq))
      (fun q hq => hcr q (List.mem_cons_of_mem _ hq))
    rw [show writeCsvMinimal '\t' (row :: rest)
        = writeRowMinimal '\t' row ++ writeCsvMinimal '\t' rest from rfl]
    cases row with
    | nil =>
      rw [show writeRowMinimal '\t' [] = ['\n'] from rfl]
      rw [show (['\n'] ++ writeCsvMinimal '\t' rest) ++ tail
          = '\n' :: (writeCsvMinimal '\t' rest ++ tail) by simp]
      rw [step_startRecord_newline, hrest]
      simp
    | cons c cs =>
      rw [show writeRowMinimal '\t' (c :: cs)
          = joinCells '\t' ((c :: cs).map (minimalField '\t')) ++ ['\n'] from rfl]
      rw [show ((joinCells '\t' ((c :: cs).map (minimalField '\t')) ++ ['\n'])
            ++ writeCsvMinimal '\t' rest) ++ tail
          = joinCells '\t' ((c :: cs).map (minimalField '\t'))
            ++ ('\n' :: (writeCsvMinimal '\t' rest ++ tail)) by simp]
      have hbridge : csvParseAux '\t' .startRecord [] []
            (joinCells '\t' ((c :: cs).map (minimalField '\t'))
              ++ ('\n' :: (writeCsvMinimal '\t' rest ++ tail)))
          = csvParseAux '\t' .startField [] []
            (joinCells '\t' ((c :: cs).map (minimalField '\t'))
              ++ ('\n' :: (writeCsvMinimal '\t' rest ++ tail))) := by
        cases hc : minimalField '\t' c with
        | nil =>
          have hcnil : c = [] := minimalField_eq_nil hc
          cases cs with
          | nil =>
            exact absurd (by rw [hcnil]) (h [c] (List.mem_cons_self _ _))
          | cons c2 cs2 =>
            rw [show joinCells '\t' ((c :: c2 :: cs2).map (minimalField '\t'))
                = minimalField '\t' c
                  ++ '\t' :: joinCells '\t' ((c2 :: cs2).map (minimalField '\t'))
                from rfl, hc]
            rw [List.nil_append]
            exact step_startRecord_eq_startField (by decide) (by decide) _ _
        | cons x r3 =>
          obtain ⟨hxn, hxr⟩ := minimalField_head_not_newline
            (hcr (c :: cs) (List.mem_cons_self _ _) c (List.mem_cons_self _ _)) hc
          have hjoin : ∃ r4, joinCells '\t' ((c :: cs).map (minimalField '\t'))
              = x :: r4 := by
            cases cs with
            | nil =>
              exact ⟨r3, by rw [show joinCells '\t' ([c].map (minimalField '\t'))
                = minimalField '\t' c from rfl, hc]⟩
            | cons c2 cs2 =>
              refine ⟨r3 ++ '\t' :: joinCells '\t' ((c2 :: cs2).map (minimalField '\t')), ?_⟩
              rw [show joinCells '\t' ((c :: c2 :: cs2).map (minimalField '\t'))
                  = minimalField '\t' c
                    ++ '\t' :: joinCells '\t' ((c2 :: cs2).map (minimalField '\t'))
                  from rfl, hc]
              simp
          obtain ⟨r4, hr4⟩ := hjoin
          rw [show joinCells '\t' ((c :: cs).map (minimalField '\t'))
                ++ ('\n' :: (writeCsvMinimal '\t' rest ++ tail))
              = x :: (r4 ++ ('\n' :: (writeCsvMinimal '\t' rest ++ tail)))
              by rw [hr4]; simp]
          exact step_startRecord_eq_startField hxn hxr _ _
      rw [hbridge]
      rw [parse_minRow (c :: cs) (by simp) (hcr (c :: cs) (List.mem_cons_self _ _)) []]
      rw [hrest]
      simp

theorem csvParse_writeCsvMinimal (rows : List (List (List Char)))
    (h : ∀ row ∈ rows, ¬row = [[]])
    (hcr : ∀ row ∈ rows, ∀ cell ∈ row, ¬ '\r' ∈ cell) :
    csvParse '\t' (writeCsvMinimal '\t' rows) = rows := by
  have h2 := parse_minRows_aux rows h hcr []
  rw [List.append_nil] at h2
  unfold csvParse
  rw [h2]
  simp [csvParseAux, csvFlush]

/-! ### C3: the round-trip claims -/

theorem escBS_of_no_backslash {s : List Char} (h : '\\' ∉ s) : escBS s = s := by
  induction s with
  | nil => rfl
  | cons c cs ih =>
    have hc : ¬c = '\\' := fun hh => h (hh ▸ List.mem_cons_self _ _)
    rw [show escBS (c :: cs) = (if c = '\\' then ['\\', '\\'] else [c]) ++ escBS cs
        from rfl]
    rw [if_neg hc, ih (fun hm => h (List.mem_cons_of_mem _ hm))]
    rfl

theorem escBS_length_map (row : List (List Char)) :
    (row.map escBS).length = row.length := by
  simp

theorem header_cols_length_ge (cfg : Config) : 16 ≤ (header_cols cfg).length := by
  rw [header_cols]
  rcases hc : cfg.include_currency with _ | _ <;>
    rcases hp : cfg.include_product2_custom with _ | _ <;>
      simp [base_cols]

/-- Every character of an escaped cell is either a character of the
original cell or the escape character itself. -/
theorem mem_escBS {x : Char} {s : List Char} (h : x ∈ escBS s) :
    x ∈ s ∨ x = '\\' := by
  unfold escBS at h
  obtain ⟨c, hc, hm⟩ := List.mem_flatMap.mp h
  by_cases hb : c = '\\'
  · rw [if_pos hb] at hm
    simp at hm
    exact Or.inr hm
  · rw [if_neg hb] at hm
    simp at hm
    exact Or.inl (hm ▸ hc)

theorem no_cr_escBS {s : List Char} (h : '\r' ∉ s) : '\r' ∉ escBS s := by
  intro hm
  rcases mem_escBS hm with hh | hh
  · exact h hh
  · exact absurd hh (by decide)

/-- C3 counterexample: the claim fails in two ways. A cell containing a
backslash comes back from the comma-delimited file with the backslash
doubled (the writer escapes it, the default-dialect re-reader has no
escapechar); and a cell containing a bare carriage return — an embedded
newline character the claim explicitly covers — survives the
comma-delimited file but is written unquoted into the tab-delimited file
(`QUOTE_MINIMAL` with `lineterminator="\n"` does not quote a bare CR),
where it splits the record in two on re-parse. -/
theorem c3_roundtrip_counterexample :
    csvParse ',' (writeCsvQuoteAll [[['a', '\\', 'b'], ['c']]])
        = [[['a', '\\', '\\', 'b'], ['c']]]
    ∧ ¬(csvParse ',' (writeCsvQuoteAll [[['a', '\\', 'b'], ['c']]])
        = [[['a', '\\', 'b'], ['c']]])
    ∧ csvParse ',' (writeCsvQuoteAll [[['a', '\r', 'b'], ['c']]])
        = [[['a', '\r', 'b'], ['c']]]
    ∧ csvParse '\t' (writeCsvMinimal '\t'
          (csvParse ',' (writeCsvQuoteAll [[['a', '\r', 'b'], ['c']]])))
        = [[['a']], [['b'], ['c']]]
    ∧ ¬(csvParse '\t' (writeCsvMinimal '\t'
          (csvParse ',' (writeCsvQuoteAll [[['a', '\r', 'b'], ['c']]])))
        = csvParse ',' (writeCsvQuoteAll [[['a', '\r', 'b'], ['c']]])) := by
  refine ⟨by decide, by decide, by decide, by decide, by decide⟩

/-- C3 amended: every cell value containing neither the escape character
(backslash) nor a bare carriage return round-trips exactly — through the
quote-every-cell comma-delimited file, and on through the derived
tab-delimited file — and for such cells the tab-delimited file re-parses
cell-for-cell and row-for-row equal to the re-parsed comma-delimited
source; this also holds of the pipeline's actual files whenever no cell
carries a bare carriage return. -/
theorem c3_roundtrip_amended (rows : List (List (List Char)))
    (hbs : ∀ row ∈ rows, ∀ cell ∈ row, '\\' ∉ cell)
    (hcr : ∀ row ∈ rows, ∀ cell ∈ row, '\r' ∉ cell)
    (hrow : ∀ row ∈ rows, ¬row = [[]]) :
    csvParse ',' (writeCsvQuoteAll rows) = rows
    ∧ csvParse '\t' (writeCsvMinimal '\t' (csvParse ',' (writeCsvQuoteAll rows))) = rows
    ∧ ∀ (cfg : Config) (st : LoopState),
        (∀ row ∈ csvFileRows cfg st, ∀ cell ∈ row, '\r' ∉ cell) →
        csvParse '\t' (tsvFileText cfg st) = csvParse ',' (csvFileText cfg st) := by
  have hid : csvParse ',' (writeCsvQuoteAll rows) = rows := by
    rw [csvParse_writeCsvQuoteAll]
    refine (List.map_congr_left ?_).trans (List.map_id rows)
    intro row hrowm
    refine (List.map_congr_left ?_).trans (List.map_id row)
    intro cell hcell
    exact escBS_of_no_backslash (hbs row hrowm cell hcell)
  refine ⟨hid, ?_, ?_⟩
  · rw [hid]
    exact csvParse_writeCsvMinimal rows hrow hcr
  · intro cfg st hcrp
    rw [tsvFileText]
    rw [show csvFileText cfg st = writeCsvQuoteAll (csvFileRows cfg st) from rfl]
    rw [csvParse_writeCsvQuoteAll]
    refine csvParse_writeCsvMinimal _ ?_ ?_
    · intro row hrowm
      obtain ⟨row0, hrow0, hr0e⟩ := List.mem_map.mp hrowm
      intro hcon
      have hlen : row.length = row0.length := by
        rw [← hr0e]
        exact escBS_length_map row0
      rw [hcon] at hlen
      have h16 := header_cols_length_ge cfg
      rcases List.mem_cons.mp hrow0 with hh | hh
      · rw [hh] at hlen
        simp [headerCells] at hlen
        omega
      · obtain ⟨rw0, hrw0, hrw0e⟩ := List.mem_map.mp hh
        rw [← hrw0e] at hlen
        simp [rowCells] at hlen
        omega
    · intro row hrowm cell hcell
      obtain ⟨row0, hrow0, hr0e⟩ := List.mem_map.mp hrowm
      rw [← hr0e] at hcell
      obtain ⟨cell0, hcell0, hc0e⟩ := List.mem_map.mp hcell
      rw [← hc0e]
      exact no_cr_escBS (hcrp row0 hrow0 cell0 hcell0)

/-- Witness for the amended C3 at a concrete row whose cells contain the
delimiter, the quote character, an embedded newline, and a tab. -/
theorem c3_roundtrip_amended_witness :
    (∀ row ∈ rows0, ∀ cell ∈ row, '\\' ∉ cell)
    ∧ (∀ row ∈ rows0, ∀ cell ∈ row, '\r' ∉ cell)
    ∧ (∀ row ∈ rows0, ¬row = [[]])
    ∧ csvParse ',' (writeCsvQuoteAll rows0) = rows0
    ∧ csvParse '\t' (writeCsvMinimal '\t' (csvParse ',' (writeCsvQuoteAll rows0)))
        = rows0 :=
  ⟨by decide, by decide, by decide,
   (c3_roundtrip_amended rows0 (by decide) (by decide) (by decide)).1,
   (c3_roundtrip_amended rows0 (by decide) (by decide) (by decide)).2.1⟩

end SFData
